import Mathlib

/-!
# Shallow embedding of the FinAi statement-analysis core

This file embeds, in Lean 4, the parsing and analytics core of the
FinAi-next-app repository:

* `src/lib/parsers/common.ts`  (shared token helpers, `toIsoDate`)
* `src/lib/parsers/generic.ts` (generic fallback strategy)
* `src/lib/parsers/icici.ts`   (ICICI-specific strategy)
* `src/lib/parsers/index.ts`   (parser registry, `runParserPipeline`)
* `src/app/api/analyze/route.ts` (route-local parser copy and `buildInsights`)

Strings are modelled as `List Char` (`Str`), JavaScript numbers as exact
rationals `ℚ` (the source only manipulates decimal amounts with at most two
fraction digits, means/variances of those, and fixed decimal literals; binary
floating-point rounding is outside the model).  The hand-rolled matchers below
implement the exact anchored regular expressions of the source, including the
JavaScript backtracking order where it is observable.
-/

set_option autoImplicit false

abbrev Str := List Char

/-- ASCII whitespace, the part of the JavaScript `\s` class that can occur in
the statement texts modelled here. -/
def jsSpace (c : Char) : Bool :=
  c = ' ' || c = '\t' || c = '\n' || c = '\r' || c = '\x0b' || c = '\x0c'

/-- The JavaScript `\d` class (ASCII digits). -/
def isDigitC (c : Char) : Bool := c.isDigit

/-- The JavaScript `[A-Za-z]` class. -/
def isAlphaC (c : Char) : Bool := c.isAlpha

/-- The JavaScript `\w` class (word characters), used for `\b` boundaries. -/
def isWordC (c : Char) : Bool := c.isAlphanum || c = '_'

def lowerStr (s : Str) : Str := s.map Char.toLower

def upperStr (s : Str) : Str := s.map Char.toUpper

/-- Models `String.prototype.trim()` (ASCII whitespace suffices here). -/
def trimStr (s : Str) : Str :=
  ((s.dropWhile jsSpace).reverse.dropWhile jsSpace).reverse

/-- Models `text.split(/\r?\n/)`: split at every `\n`, dropping one `\r`
directly in front of it. -/
def splitLinesAux : Str → Str → List Str
  | [], acc => [acc.reverse]
  | c :: rest, acc =>
    if c = '\n' then
      (match acc with
        | '\r' :: a => a.reverse
        | _ => acc.reverse) :: splitLinesAux rest []
    else
      splitLinesAux rest (c :: acc)

def splitLines (s : Str) : List Str := splitLinesAux s []

/-- The maximal-word decomposition used to model
`l.replace(/\s+/g, " ").trim()`. -/
def wordsOfAux : Str → Str → List Str
  | [], acc => if acc.isEmpty then [] else [acc.reverse]
  | c :: rest, acc =>
    if jsSpace c then
      if acc.isEmpty then wordsOfAux rest [] else acc.reverse :: wordsOfAux rest []
    else
      wordsOfAux rest (c :: acc)

def wordsOf (s : Str) : List Str := wordsOfAux s []

def joinSp : List Str → Str
  | [] => []
  | [w] => w
  | w :: ws => w ++ ' ' :: joinSp ws

/-- Models `l.replace(/\s+/g, " ").trim()`: every whitespace run collapses to a
single space and outer whitespace disappears. -/
def collapseWs (s : Str) : Str := joinSp (wordsOf s)

/-- Models the line normalisation shared by all parsers:
`text.split(/\r?\n/).map(l => l.replace(/\s+/g, " ").trim()).filter(Boolean)`. -/
def linesOf (text : Str) : List Str :=
  ((splitLines text).map collapseWs).filter (fun l => !l.isEmpty)

/-- Models JavaScript `hay.includes(needle)`. -/
def hasSub (needle : Str) : Str → Bool
  | [] => needle.isEmpty
  | c :: t => needle.isPrefixOf (c :: t) || hasSub needle t

/-- Split at every occurrence of a character (JavaScript `s.split(ch)`). -/
def splitChAux (ch : Char) : Str → Str → List Str
  | [], acc => [acc.reverse]
  | c :: rest, acc =>
    if c = ch then acc.reverse :: splitChAux ch rest []
    else splitChAux ch rest (c :: acc)

def splitCh (ch : Char) (s : Str) : List Str := splitChAux ch s []

/-- Decimal value of a digit string (JavaScript `Number("…")` on digits). -/
def digitsToNat (s : Str) : Nat :=
  s.foldl (fun a c => 10 * a + (c.toNat - '0'.toNat)) 0

def natStr (n : Nat) : Str := (Nat.repr n).toList

/-- Models `String.prototype.padStart(2, "0")`. -/
def pad2 (s : Str) : Str := List.replicate (2 - s.length) '0' ++ s

/-- Exact value of an unsigned decimal string `digits[.digits]`. -/
def decValueNN (t : Str) : ℚ :=
  let ip := t.takeWhile (fun c => c ≠ '.')
  match t.dropWhile (fun c => c ≠ '.') with
  | [] => (digitsToNat ip : ℚ)
  | _ :: frac => (digitsToNat ip : ℚ) + (digitsToNat frac : ℚ) / (10 : ℚ) ^ frac.length

/-- Exact value of a decimal string `[-]digits[.digits]` (models `Number(...)`
on the normalised amount tokens; such a value is always finite). -/
def decValue (s : Str) : ℚ :=
  match s with
  | '-' :: t => -(decValueNN t)
  | _ => decValueNN s

/-- Embeds `normalizeAmountToken`: erase everything outside `[\d,.-]`, then
erase the commas.  The final `.trim()` of the source is a no-op because only
non-space characters remain. -/
def normalizeAmountToken (raw : Str) : Str :=
  (raw.filter (fun c => isDigitC c || c = ',' || c = '.' || c = '-')).filter
    (fun c => c ≠ ',')

/-- Anchored test for `^\d+(?:\.\d{1,2})?$`: the maximal digit prefix must be
non-empty and be followed by nothing, or by a dot and one or two digits. -/
def isPlainDecimal (s : Str) : Bool :=
  let ip := s.takeWhile isDigitC
  (decide (ip ≠ [])) &&
    match s.dropWhile isDigitC with
    | [] => true
    | '.' :: frac =>
      frac.all isDigitC && (decide (frac.length = 1) || decide (frac.length = 2))
    | _ => false

/-- Anchored test for `^-?\d+(?:\.\d{1,2})?$`: an optional single leading
minus, then a plain decimal. -/
def isSignedPlainDecimal (s : Str) : Bool :=
  if s.head? = some '-' then isPlainDecimal s.tail else isPlainDecimal s

/-- Embeds `parseAmountToken` from `src/lib/parsers/common.ts`: the anchored
regex there is `^-?\d+(?:\.\d{1,2})?$`, so a single leading minus sign is
accepted; on success the value is `Number(normalized)` (always finite). -/
def Common.parseAmountToken (token : Str) : Option ℚ :=
  if isSignedPlainDecimal (normalizeAmountToken token) then
    some (decValue (normalizeAmountToken token))
  else none

/-- Embeds `parseAmountToken` from `src/app/api/analyze/route.ts:244`: its
anchored regex is `^\d+(?:\.\d{1,2})?$` — a leading minus sign is rejected. -/
def Route.parseAmountToken (token : Str) : Option ℚ :=
  if isPlainDecimal (normalizeAmountToken token) then
    some (decValue (normalizeAmountToken token))
  else none

/-! ## The money-token scanner: global matching of `-?\d[\d,]*\.\d{1,2}`

At a given start position the pattern is deterministic: after the optional
minus a digit is required, then the maximal run of digits/commas (no
backtracking is possible because the following `.` is outside that class),
then a dot and one or two digits (two when available). -/

def matchMoneyCore (s : Str) : Option (Str × Str) :=
  match s with
  | [] => none
  | c :: rest =>
    if isDigitC c then
      let run := rest.takeWhile (fun d => isDigitC d || d = ',')
      match rest.dropWhile (fun d => isDigitC d || d = ',') with
      | '.' :: d1 :: tl =>
        if isDigitC d1 then
          match tl with
          | d2 :: tl2 =>
            if isDigitC d2 then some (c :: run ++ '.' :: [d1, d2], tl2)
            else some (c :: run ++ ['.', d1], tl)
          | [] => some (c :: run ++ ['.', d1], [])
        else none
      | _ => none
    else none

/-- One attempted match of `-?\d[\d,]*\.\d{1,2}` at the start of `s`.  When the
leading `-` branch fails, retrying without the minus also fails (the first
character would then have to be a digit), hence the `none`. -/
def matchMoneyAt (s : Str) : Option (Str × Str) :=
  if s.head? = some '-' then
    match matchMoneyCore s.tail with
    | some (tok, rem) => some ('-' :: tok, rem)
    | none => none
  else matchMoneyCore s

theorem dropWhileLenLe {α : Type} (p : α → Bool) : ∀ s : List α, (s.dropWhile p).length ≤ s.length
  | [] => Nat.le_refl _
  | c :: rest => by
    simp only [List.dropWhile]
    cases p c with
    | true => exact Nat.le_succ_of_le (dropWhileLenLe p rest)
    | false => exact Nat.le_refl _

theorem matchMoneyCore_lt {s tok rem : Str} (h : matchMoneyCore s = some (tok, rem)) :
    rem.length < s.length := by
  unfold matchMoneyCore at h
  split at h
  · exact absurd h (by simp)
  · next c rest =>
    have hdw : (rest.dropWhile (fun d => isDigitC d || d = ',')).length ≤ rest.length :=
      dropWhileLenLe _ rest
    split at h
    · split at h
      · next heq =>
        rename_i d1 tl
        have hlen : tl.length + 2 ≤ rest.length := by
          have := congrArg List.length heq
          simp only [List.length_cons] at this
          omega
        split at h
        · split at h
          · next d2 tl2 =>
            split at h
            · obtain ⟨rfl, rfl⟩ : _ ∧ tl2 = rem := by
                have := Option.some.inj h
                exact ⟨congrArg Prod.fst this, congrArg Prod.snd this⟩
              simp only [List.length_cons] at hlen ⊢
              omega
            · obtain ⟨rfl, rfl⟩ : _ ∧ d2 :: tl2 = rem := by
                have := Option.some.inj h
                exact ⟨congrArg Prod.fst this, congrArg Prod.snd this⟩
              simp only [List.length_cons] at hlen ⊢
              omega
          · obtain ⟨rfl, rfl⟩ : _ ∧ [] = rem := by
              have := Option.some.inj h
              exact ⟨congrArg Prod.fst this, congrArg Prod.snd this⟩
            simp only [List.length_cons, List.length_nil]
            omega
        · exact absurd h (by simp)
      · exact absurd h (by simp)
    · exact absurd h (by simp)

theorem matchMoneyAt_lt {s tok rem : Str} (h : matchMoneyAt s = some (tok, rem)) :
    rem.length < s.length := by
  unfold matchMoneyAt at h
  split at h
  · next hhd =>
    split at h
    · next t r hc =>
      obtain ⟨rfl, rfl⟩ : _ ∧ r = rem := by
        have := Option.some.inj h
        exact ⟨congrArg Prod.fst this, congrArg Prod.snd this⟩
      have h1 := matchMoneyCore_lt hc
      have h2 : s.tail.length < s.length := by
        cases s with
        | nil => simp at hhd
        | cons a l => simp
      omega
    · exact absurd h (by simp)
  · exact matchMoneyCore_lt h

/-- The scanner itself: all global matches of `-?\d[\d,]*\.\d{1,2}` with their
start offsets, in text order (models `Array.from(restRaw.matchAll(...))`).
`matchAll` resumes after each match (`lastIndex`); since a match starting at
the current position consumes exactly `tok.length` characters, this is
modelled structurally by skipping the next `tok.length - 1` characters. -/
def scanMoneyAux : Str → Nat → Nat → List (Nat × Str)
  | [], _, _ => []
  | _ :: rest, i, k + 1 => scanMoneyAux rest (i + 1) k
  | c :: rest, i, 0 =>
    match matchMoneyAt (c :: rest) with
    | some (tok, _) => (i, tok) :: scanMoneyAux rest (i + 1) (tok.length - 1)
    | none => scanMoneyAux rest (i + 1) 0

def scanMoney (s : Str) : List (Nat × Str) := scanMoneyAux s 0 0


/-! ## Date tokens and `toIsoDate`

`DATE_TOKEN` (common.ts / route.ts) is the alternation of
`\d{1,2}[-./]\d{1,2}[-./]\d{2,4}`, `\d{1,2}\s+[A-Za-z]{3}\s+\d{2,4}` and
`\d{1,2}-[A-Za-z]{3}-\d{2,4}`.  `toIsoDate` itself uses the two anchored
patterns `^(\d{1,2})[-./](\d{1,2})[-./](\d{2,4})$` and
`^(\d{1,2})[\s-]([A-Za-z]{3})[\s-](\d{2,4})$`. -/

def isDotSep (c : Char) : Bool := c = '.' || c = '/' || c = '-'

def isSpDash (c : Char) : Bool := jsSpace c || c = '-'

/-- Matcher for the anchored `^(\d{1,2})[-./](\d{1,2})[-./](\d{2,4})$`.  The
digit groups are forced to be maximal runs (the following separator is not a
digit), so no backtracking arises. -/
def slashMatch (s : Str) : Option (Str × Str × Str) :=
  let d := s.takeWhile isDigitC
  if d.length = 0 || 2 < d.length then none else
  match s.dropWhile isDigitC with
  | s1 :: r2 =>
    if isDotSep s1 then
      let m := r2.takeWhile isDigitC
      if m.length = 0 || 2 < m.length then none else
      match r2.dropWhile isDigitC with
      | s2 :: y =>
        if isDotSep s2 && y.all isDigitC && decide (2 ≤ y.length) && decide (y.length ≤ 4) then
          some (d, m, y)
        else none
      | [] => none
    else none
  | [] => none

/-- Matcher for the anchored `^(\d{1,2})[\s-]([A-Za-z]{3})[\s-](\d{2,4})$`.
The letter group must be exactly the maximal alphabetic run (a fourth letter
would sit where `[\s-]` is required). -/
def monthNameMatch (s : Str) : Option (Str × Str × Str) :=
  let d := s.takeWhile isDigitC
  if d.length = 0 || 2 < d.length then none else
  match s.dropWhile isDigitC with
  | s1 :: r2 =>
    if isSpDash s1 then
      let a := r2.takeWhile isAlphaC
      if a.length ≠ 3 then none else
      match r2.dropWhile isAlphaC with
      | s2 :: y =>
        if isSpDash s2 && y.all isDigitC && decide (2 ≤ y.length) && decide (y.length ≤ 4) then
          some (d, a, y)
        else none
      | [] => none
    else none
  | [] => none

/-- The month-abbreviation table of `toIsoDate` (keys are lower-cased). -/
def monthMap (mmm : Str) : Option Str :=
  if mmm = "jan".toList then some "01".toList
  else if mmm = "feb".toList then some "02".toList
  else if mmm = "mar".toList then some "03".toList
  else if mmm = "apr".toList then some "04".toList
  else if mmm = "may".toList then some "05".toList
  else if mmm = "jun".toList then some "06".toList
  else if mmm = "jul".toList then some "07".toList
  else if mmm = "aug".toList then some "08".toList
  else if mmm = "sep".toList then some "09".toList
  else if mmm = "oct".toList then some "10".toList
  else if mmm = "nov".toList then some "11".toList
  else if mmm = "dec".toList then some "12".toList
  else none

/-- The 2-digit year pivot of `toIsoDate`:
`if (yyyy.length === 2) yyyy = String(y >= 70 ? 1900 + y : 2000 + y)`. -/
def fixYear (yyyy : Str) : Str :=
  if yyyy.length = 2 then
    let y := digitsToNat yyyy
    natStr (if 70 ≤ y then 1900 + y else 2000 + y)
  else yyyy

/-- Embeds `toIsoDate` (identical in `route.ts:251` and
`bank-statement-pwa/src/lib/parsers/common.ts:15`): a slash/dot/dash numeric
date or a `DD Mon YYYY` date is rebuilt as `yyyy-mm-dd` with zero-padded day
and month; any other input — including an unrecognised month abbreviation —
is returned unchanged. -/
def toIsoDate (d : Str) : Str :=
  match slashMatch d with
  | some (dd, mm, yy) => fixYear yy ++ '-' :: pad2 mm ++ '-' :: pad2 dd
  | none =>
    match monthNameMatch d with
    | some (dd, mmm, yy) =>
      match monthMap (lowerStr mmm) with
      | some mm => fixYear yy ++ '-' :: mm ++ '-' :: pad2 dd
      | none => d
    | none => d

/-- Embeds `monthKey` (route.ts:439): the anchored `^(\d{4})-(\d{2})-\d{2}$`,
returning the `yyyy-mm` prefix on success and `null` otherwise. -/
def monthKey (dateIso : Str) : Option Str :=
  let y := dateIso.takeWhile isDigitC
  if y.length ≠ 4 then none else
  match dateIso.dropWhile isDigitC with
  | '-' :: r2 =>
    let m := r2.takeWhile isDigitC
    if m.length ≠ 2 then none else
    (match r2.dropWhile isDigitC with
      | '-' :: d => if d.all isDigitC && decide (d.length = 2) then some (y ++ '-' :: m) else none
      | _ => none)
  | _ => none

/-! ### `DATE_TOKEN` as an unanchored alternation with candidates

Inside the row regexes the year group `\d{2,4}` is followed by further regex
material, so its greedy length (4, then 3, then 2 digits) genuinely
backtracks.  All other groups are forced maximal runs.  A match attempt at a
position therefore yields an ordered candidate list. -/

def yearCands (yrun : Str) (ytail : Str) (pre : Str) : List (Str × Str) :=
  (if 4 ≤ yrun.length then [4, 3, 2] else if yrun.length = 3 then [3, 2]
   else if yrun.length = 2 then [2] else []).map
    (fun j => (pre ++ yrun.take j, yrun.drop j ++ ytail))

/-- Candidates of `\d{1,2}[-./]\d{1,2}[-./]\d{2,4}` at the start of `s`. -/
def numDateCands (s : Str) : List (Str × Str) :=
  let d := s.takeWhile isDigitC
  if d.length = 0 || 2 < d.length then [] else
  match s.dropWhile isDigitC with
  | c1 :: r2 =>
    if isDotSep c1 then
      let m := r2.takeWhile isDigitC
      if m.length = 0 || 2 < m.length then [] else
      match r2.dropWhile isDigitC with
      | c2 :: r4 =>
        if isDotSep c2 then
          yearCands (r4.takeWhile isDigitC) (r4.dropWhile isDigitC) (d ++ c1 :: m ++ [c2])
        else []
      | [] => []
    else []
  | [] => []

/-- Candidates of `\d{1,2}\s+[A-Za-z]{3}\s+\d{2,4}` at the start of `s`
(`sep := jsSpace`) or of `\d{1,2}-[A-Za-z]{3}-\d{2,4}` (single dashes). -/
def monDateCandsWith (spaceSep : Bool) (s : Str) : List (Str × Str) :=
  let d := s.takeWhile isDigitC
  if d.length = 0 || 2 < d.length then [] else
  let r1 := s.dropWhile isDigitC
  let sep1 := if spaceSep then r1.takeWhile jsSpace else r1.take 1
  let r2 := if spaceSep then r1.dropWhile jsSpace else r1.drop 1
  if spaceSep && sep1.length = 0 then [] else
  if !spaceSep && sep1 ≠ ['-'] then [] else
  let a := r2.takeWhile isAlphaC
  if a.length ≠ 3 then [] else
  let r3 := r2.dropWhile isAlphaC
  let sep2 := if spaceSep then r3.takeWhile jsSpace else r3.take 1
  let r4 := if spaceSep then r3.dropWhile jsSpace else r3.drop 1
  if spaceSep && sep2.length = 0 then [] else
  if !spaceSep && sep2 ≠ ['-'] then [] else
  yearCands (r4.takeWhile isDigitC) (r4.dropWhile isDigitC) (d ++ sep1 ++ a ++ sep2)

/-- All `DATE_TOKEN` candidates at the start of `s`, in the preference order
of the JavaScript alternation. -/
def dateTokenCands (s : Str) : List (Str × Str) :=
  numDateCands s ++ monDateCandsWith true s ++ monDateCandsWith false s

/-- Consume the mandatory `\s+` (maximal, since what follows starts with a
non-space in every use site). -/
def spaceRun (s : Str) : Option Str :=
  match s with
  | c :: rest => if jsSpace c then some (rest.dropWhile jsSpace) else none
  | [] => none

/-- After the first date token: `(?:\s+(DATE_TOKEN))?\s+(.*)$`.  The optional
second date is tried first (with every candidate), then dropped. -/
def rowTail (s : Str) : Option (Option Str × Str) :=
  let second :=
    match spaceRun s with
    | some r1 =>
      (dateTokenCands r1).findSome? (fun p =>
        match spaceRun p.2 with
        | some rest => some (some p.1, rest)
        | none => none)
    | none => none
  match second with
  | some x => some x
  | none =>
    match spaceRun s with
    | some rest => some (none, rest)
    | none => none

/-- The optional leading row number `(?:\d+\s+)?` (greedy, tried first; both
its digit run and the space run are forced maximal). -/
def withOptRowNum {β : Type} (f : Str → Option β) (line : Str) : Option β :=
  let ds := line.takeWhile isDigitC
  match (if ds.isEmpty then none else (spaceRun (line.dropWhile isDigitC)).bind f) with
  | some x => some x
  | none => f line

/-- Embeds the row-start regex of `generic.ts:29` and `route.ts:323`:
`^(?:\d+\s+)?(DATE_TOKEN)(?:\s+(DATE_TOKEN))?\s+(.*)$`, returning
(date, optional value date, rest). -/
def matchRowStart (line : Str) : Option (Str × Option Str × Str) :=
  withOptRowNum
    (fun s =>
      (dateTokenCands s).findSome? (fun p =>
        (rowTail p.2).map (fun q => (p.1, q.1, q.2))))
    line

/-- Embeds the row-start regex of `icici.ts:12`:
`^(?:\d+\s+)?(DATE_TOKEN)\s+(.*)$`. -/
def matchRowIcici (line : Str) : Option (Str × Str) :=
  withOptRowNum
    (fun s =>
      (dateTokenCands s).findSome? (fun p =>
        (spaceRun p.2).map (fun rest => (p.1, rest))))
    line


/-! ## Data model -/

inductive DrCr where
  | CR
  | DR
deriving DecidableEq, Repr

/-- The transaction record produced by a registered strategy
(`src/lib/parsers/types.ts`). -/
structure ParserTxn where
  date : Str
  description : Str
  amount : ℚ
  drCr : DrCr
  currency : Str
  category : Str
  confidence : ℚ
  sourceParser : Str
deriving DecidableEq, Repr

/-- The route-level transaction record (`route.ts:16`); `drCr` and
`sourceParser` are optional there. -/
structure Txn where
  id : Str
  date : Str
  description : Str
  amount : ℚ
  drCr : Option DrCr
  sourceParser : Option Str
  currency : Str
  category : Str
  confidence : ℚ
deriving DecidableEq, Repr

/-- Embeds `inferCategory` (identical in common.ts and route.ts:295). -/
def inferCategory (text : Str) : Str :=
  let t := lowerStr text
  if hasSub "upi".toList t || hasSub "imps".toList t || hasSub "neft".toList t
      || hasSub "rtgs".toList t then "transfer".toList
  else if hasSub "atm".toList t then "cash".toList
  else if hasSub "salary".toList t then "income".toList
  else if hasSub "interest".toList t then "interest".toList
  else if hasSub "emi".toList t || hasSub "loan".toList t then "loan".toList
  else if hasSub "charge".toList t || hasSub "fee".toList t then "fees".toList
  else "uncategorized".toList

/-- Embeds `looksLikeHeader` (identical in generic.ts:13 and route.ts:235). -/
def looksLikeHeader (line : Str) : Bool :=
  let l := collapseWs (lowerStr line)
  let hasDateCols := (hasSub "date".toList l && hasSub "value date".toList l)
    || hasSub "transaction date".toList l
  let hasDescCol := hasSub "particular".toList l || hasSub "remarks".toList l
    || hasSub "transaction remarks".toList l
  hasDateCols && hasDescCol && hasSub "withdraw".toList l && hasSub "deposit".toList l
    && hasSub "balance".toList l

/-- Occurrence of `cr\b` (the only alternative of the credit-hint regex with a
boundary): the letters `cr` followed by a non-word character or the end. -/
def hasCrBoundary : Str → Bool
  | c1 :: c2 :: rest =>
    (Char.toLower c1 = 'c' && Char.toLower c2 = 'r' &&
      (match rest with | [] => true | r :: _ => !isWordC r))
    || hasCrBoundary (c2 :: rest)
  | _ => false

/-- Embeds the credit-hint test of generic.ts:92 and route.ts:394:
`(salary|interest|refund|credit|cr\b|deposit|cashback|received)` with the `i`
flag. -/
def creditHintTest (s : Str) : Bool :=
  let t := lowerStr s
  hasSub "salary".toList t || hasSub "interest".toList t || hasSub "refund".toList t
    || hasSub "credit".toList t || hasCrBoundary s || hasSub "deposit".toList t
    || hasSub "cashback".toList t || hasSub "received".toList t

/-! ## The generic strategy (`src/lib/parsers/generic.ts`) -/

structure Generic.ParsedRow where
  date : Str
  particulars : Str
  withdrawal : Option ℚ
  deposit : Option ℚ
  txnAmount : Option ℚ
  balance : Option ℚ
deriving DecidableEq, Repr

/-- `firstTailIndex` (generic.ts:48, route.ts:333, icici.ts:48 with floor 2):
the start offset of the first of the last `min(3, n)` regex matches (the
match index is never `undefined`; the `?? restRaw.length` fallback is dead
code reproduced by the `getD`). -/
def firstTailIdx (amountMatches : List (Nat × Str)) (restLen : Nat) : Nat :=
  if 3 ≤ amountMatches.length then
    ((amountMatches.get? (amountMatches.length - 3)).map (fun p => p.1)).getD restLen
  else if 2 ≤ amountMatches.length then
    ((amountMatches.get? (amountMatches.length - 2)).map (fun p => p.1)).getD restLen
  else if 1 ≤ amountMatches.length then
    ((amountMatches.get? (amountMatches.length - 1)).map (fun p => p.1)).getD restLen
  else restLen

/-- Row construction of `parseRows` (generic.ts:41-65): scan the rest of the
line for money tokens, parse them with the common `parseAmountToken`, and
assign the last one/two/three values positionally. -/
def Generic.mkRow (dateTok : Str) (restRaw : Str) : Generic.ParsedRow :=
  let amountMatches := scanMoney restRaw
  let amountValues := amountMatches.filterMap (fun p => Common.parseAmountToken p.2)
  let lastThree := amountValues.drop (amountValues.length - 3)
  let particulars := collapseWs (restRaw.take (firstTailIdx amountMatches restRaw.length))
  { date := toIsoDate dateTok
    particulars := particulars
    withdrawal := if lastThree.length = 3 then lastThree.get? 0 else none
    deposit := if lastThree.length = 3 then lastThree.get? 1 else none
    txnAmount := if lastThree.length = 2 then lastThree.get? 0 else none
    balance := if 0 < lastThree.length then lastThree.get? (lastThree.length - 1) else none }

/-- The line loop of `parseRows` (generic.ts:31-71): before the header every
line is skipped; afterwards a date-led line opens a new row and any other
line is folded into the current row's particulars. -/
def Generic.parseRowsAux : List Str → Bool → Option Generic.ParsedRow →
    List Generic.ParsedRow → List Generic.ParsedRow
  | [], _, current, rows =>
    (match current with | some c => rows ++ [c] | none => rows)
  | line :: ls, inTable, current, rows =>
    if !inTable then
      if looksLikeHeader line then Generic.parseRowsAux ls true current rows
      else Generic.parseRowsAux ls false current rows
    else
      match matchRowStart line with
      | some (dt1, _, restRaw) =>
        Generic.parseRowsAux ls inTable (some (Generic.mkRow dt1 restRaw))
          (match current with | some c => rows ++ [c] | none => rows)
      | none =>
        match current with
        | some c =>
          Generic.parseRowsAux ls inTable
            (some { c with particulars := trimStr (c.particulars ++ ' ' :: line) }) rows
        | none => Generic.parseRowsAux ls inTable none rows

/-- Embeds `parseRows` (generic.ts:20): rows with empty particulars are
dropped at the end. -/
def Generic.parseRows (text : Str) : List Generic.ParsedRow :=
  (Generic.parseRowsAux (linesOf text) false none []).filter
    (fun r => r.particulars.length ≠ 0)

/-- The row loop of `rowsToTxns` (generic.ts:75-111).  Note the final `else
continue`: a row resolved by none of the five rules produces no transaction
and leaves `prevBalance` untouched. -/
def Generic.rowsToTxnsAux : List Generic.ParsedRow → Option ℚ → List ParserTxn
  | [], _ => []
  | r :: rs, prevBalance =>
    if hasSub "opening balance".toList (lowerStr r.particulars) then
      Generic.rowsToTxnsAux rs (match r.balance with | some b => some b | none => prevBalance)
    else
      let hasDeposit := match r.deposit with | some d => decide (0 < d) | none => false
      let hasWithdrawal := match r.withdrawal with | some w => decide (0 < w) | none => false
      let amount? : Option ℚ :=
        if hasDeposit && hasWithdrawal then some (r.deposit.getD 0 - r.withdrawal.getD 0)
        else if hasDeposit then r.deposit
        else if hasWithdrawal then r.withdrawal.map (fun w => -w)
        else
          match r.balance, prevBalance with
          | some b, some pb => some (b - pb)
          | _, _ =>
            match r.txnAmount with
            | some ta => some (if creditHintTest r.particulars then |ta| else -|ta|)
            | none => none
      match amount? with
      | none => Generic.rowsToTxnsAux rs prevBalance
      | some amount =>
        { date := r.date
          description := r.particulars
          amount := amount
          drCr := if 0 ≤ amount then DrCr.CR else DrCr.DR
          currency := "INR".toList
          category := inferCategory r.particulars
          confidence := if hasDeposit || hasWithdrawal then 0.84 else 0.68
          sourceParser := "generic-v1".toList } ::
          Generic.rowsToTxnsAux rs
            (match r.balance with | some b => some b | none => prevBalance)

def Generic.rowsToTxns (rows : List Generic.ParsedRow) : List ParserTxn :=
  Generic.rowsToTxnsAux rows none

/-- A registered strategy (`src/lib/parsers/types.ts`). -/
structure StatementParser where
  id : Str
  canParse : Str → ℚ
  parse : Str → List ParserTxn

/-- Embeds `genericStatementParser` (generic.ts:114). -/
def Generic.genericStatementParser : StatementParser where
  id := "generic-v1".toList
  canParse := fun text =>
    let lower := lowerStr text
    if hasSub "value date".toList lower && hasSub "withdraw".toList lower
        && hasSub "deposit".toList lower then 0.75
    else if hasSub "transaction date".toList lower && hasSub "withdraw".toList lower then 0.55
    else 0.2
  parse := fun text => Generic.rowsToTxns (Generic.parseRows text)

/-! ## The ICICI strategy (`src/lib/parsers/icici.ts`)

Unlike the generic strategy, `parseIciciRows` never looks for a header line:
every normalised line matching `^(?:\d+\s+)?(DATE_TOKEN)\s+(.*)$` with at
least two money tokens is a candidate row. -/

/-- The credit-hint regex of icici.ts:43 (no `cr\b`, no `deposit`). -/
def iciciCreditHint (s : Str) : Bool :=
  let t := lowerStr s
  hasSub "salary".toList t || hasSub "interest".toList t || hasSub "refund".toList t
    || hasSub "credit".toList t || hasSub "cashback".toList t || hasSub "received".toList t

/-- The header-word filter of icici.ts:53. -/
def iciciHeaderTest (s : Str) : Bool :=
  let t := lowerStr s
  hasSub "transaction date".toList t || hasSub "withdrawal amount".toList t
    || hasSub "deposit amount".toList t || hasSub "balance".toList t

def Icici.parseIciciRowsAux : List Str → Option ℚ → List ParserTxn
  | [], _ => []
  | line :: ls, prevBalance =>
    match matchRowIcici line with
    | none => Icici.parseIciciRowsAux ls prevBalance
    | some (dtok, rest) =>
      let date := toIsoDate dtok
      let amountMatches := scanMoney rest
      if amountMatches.length < 2 then Icici.parseIciciRowsAux ls prevBalance else
      let values := amountMatches.filterMap (fun p => Common.parseAmountToken p.2)
      if values.length < 2 then Icici.parseIciciRowsAux ls prevBalance else
      let balance := (values.get? (values.length - 1)).getD 0
      let prev1 := if 2 ≤ values.length then (values.get? (values.length - 2)).getD 0 else 0
      let prev2 := if 3 ≤ values.length then values.get? (values.length - 3) else none
      let wd : Option ℚ × Option ℚ :=
        match prev2 with
        | some p2 =>
          (if 0 < p2 then some p2 else none, if 0 < prev1 then some prev1 else none)
        | none =>
          match prevBalance with
          | some pb =>
            let delta := balance - pb
            if 0 ≤ delta then (none, some |delta|) else (some |delta|, none)
          | none =>
            if iciciCreditHint rest then (none, some |prev1|) else (some |prev1|, none)
      let withdrawal := wd.1
      let deposit := wd.2
      let firstTailIndex :=
        if 3 ≤ amountMatches.length then
          ((amountMatches.get? (amountMatches.length - 3)).map (fun p => p.1)).getD rest.length
        else
          ((amountMatches.get? (amountMatches.length - 2)).map (fun p => p.1)).getD rest.length
      let description := collapseWs (rest.take firstTailIndex)
      if description.isEmpty || iciciHeaderTest description then
        Icici.parseIciciRowsAux ls prevBalance
      else
        let amount := deposit.getD 0 - withdrawal.getD 0
        { date := date
          description := description
          amount := amount
          drCr := if 0 ≤ amount then DrCr.CR else DrCr.DR
          currency := "INR".toList
          category := inferCategory description
          confidence := 0.86
          sourceParser := "icici-v1".toList } :: Icici.parseIciciRowsAux ls (some balance)

def Icici.parseIciciRows (text : Str) : List ParserTxn :=
  Icici.parseIciciRowsAux (linesOf text) none

/-- Embeds `iciciStatementParser` (icici.ts:74).  Note the floor hint of
`0.05`: the ICICI strategy is run on every input. -/
def Icici.iciciStatementParser : StatementParser where
  id := "icici-v1".toList
  canParse := fun text =>
    let l := lowerStr text
    if hasSub "icici bank".toList l && hasSub "transaction remarks".toList l then 0.95
    else if hasSub "icici".toList l && hasSub "withdrawal amount".toList l
        && hasSub "deposit amount".toList l then 0.8
    else 0.05
  parse := fun text => Icici.parseIciciRows text

/-! ## The registry (`src/lib/parsers/index.ts`) -/

structure ParserRunResult where
  parserId : Str
  score : ℚ
  txns : List ParserTxn
deriving DecidableEq, Repr

/-- Embeds `parserScore` (index.ts:7). -/
def parserScore (txns : List ParserTxn) (hint : ℚ) : ℚ :=
  if txns.length = 0 then hint * 5
  else
    let avgConf := (txns.foldl (fun s t => s + t.confidence) 0) / (txns.length : ℚ)
    (txns.length : ℚ) * (0.55 + avgConf * 0.45) + hint * 25

/-- The loop of `runParserPipeline` (index.ts:16-22): strategies with hint
`≤ 0` are skipped; a strictly greater score replaces the best result. -/
def runParserPipelineAux : List StatementParser → Str → ParserRunResult → ParserRunResult
  | [], _, best => best
  | p :: ps, text, best =>
    let hint := p.canParse text
    if hint ≤ 0 then runParserPipelineAux ps text best
    else
      let txns := p.parse text
      let score := parserScore txns hint
      if best.score < score then
        runParserPipelineAux ps text { parserId := p.id, score := score, txns := txns }
      else runParserPipelineAux ps text best

def PARSERS : List StatementParser :=
  [Icici.iciciStatementParser, Generic.genericStatementParser]

def runParserPipelineWith (ps : List StatementParser) (text : Str) : ParserRunResult :=
  runParserPipelineAux ps text { parserId := "none".toList, score := 0, txns := [] }

/-- Embeds `runParserPipeline` (index.ts:13). -/
def runParserPipeline (text : Str) : ParserRunResult :=
  runParserPipelineWith PARSERS text


/-! ## The route-local parser copy (`route.ts:306-437`) -/

structure Route.ParsedRow where
  date : Str
  valueDate : Option Str
  particulars : Str
  withdrawal : Option ℚ
  deposit : Option ℚ
  txnAmount : Option ℚ
  balance : Option ℚ
  balanceType : Option DrCr
deriving DecidableEq, Repr

/-- `w.toUpperCase()` as a `DR`/`CR` marker, for tokens passing
`^(DR|CR)$` with the `i` flag. -/
def drCrOfWord (w : Str) : Option DrCr :=
  if lowerStr w = "dr".toList then some DrCr.DR
  else if lowerStr w = "cr".toList then some DrCr.CR
  else none

/-- First match of `\b(DR|CR)\b` (case-insensitive) in a string: a `dr` or
`cr` pair of letters whose neighbours are not word characters. -/
def findDrCrAux : Option Char → Str → Option DrCr
  | prev, c1 :: c2 :: rest =>
    let okL := match prev with | none => true | some p => !isWordC p
    let okR := match rest with | [] => true | r :: _ => !isWordC r
    if okL && okR && Char.toLower c1 = 'd' && Char.toLower c2 = 'r' then some DrCr.DR
    else if okL && okR && Char.toLower c1 = 'c' && Char.toLower c2 = 'r' then some DrCr.CR
    else findDrCrAux (some c1) (c2 :: rest)
  | _, _ => none

def findDrCrWord (s : Str) : Option DrCr := findDrCrAux none s

/-- Row construction of `parseStatementRows` (route.ts:324-362): like the
generic one but with the route-local `parseAmountToken` (which rejects
negative tokens), the optional value date, and the trailing `DR`/`CR`
marker. -/
def Route.mkRow (dateRaw : Str) (valueDateRaw : Option Str) (restRaw : Str) : Route.ParsedRow :=
  let amountMatches := scanMoney restRaw
  let amountValues := amountMatches.filterMap (fun p => Route.parseAmountToken p.2)
  let lastThree := amountValues.drop (amountValues.length - 3)
  let particulars := collapseWs (restRaw.take (firstTailIdx amountMatches restRaw.length))
  let tokens := (splitCh ' ' restRaw).filter (fun t => !t.isEmpty)
  let balanceType :=
    match tokens.getLast? with
    | some w =>
      (match drCrOfWord w with
        | some bt => some bt
        | none => findDrCrWord restRaw)
    | none => findDrCrWord restRaw
  { date := toIsoDate dateRaw
    valueDate := valueDateRaw.map toIsoDate
    particulars := particulars
    withdrawal := if lastThree.length = 3 then lastThree.get? 0 else none
    deposit := if lastThree.length = 3 then lastThree.get? 1 else none
    txnAmount := if lastThree.length = 2 then lastThree.get? 0 else none
    balance := if 0 < lastThree.length then lastThree.get? (lastThree.length - 1) else none
    balanceType := balanceType }

/-- The line loop of `parseStatementRows` (route.ts:316-370).  Unlike the
generic copy, a continuation line is folded in only when it is not itself a
header line. -/
def Route.parseStatementRowsAux : List Str → Bool → Option Route.ParsedRow →
    List Route.ParsedRow → List Route.ParsedRow
  | [], _, current, rows =>
    (match current with | some c => rows ++ [c] | none => rows)
  | line :: ls, inTable, current, rows =>
    if !inTable then
      if looksLikeHeader line then Route.parseStatementRowsAux ls true current rows
      else Route.parseStatementRowsAux ls false current rows
    else
      match matchRowStart line with
      | some (dateRaw, valueDateRaw, restRaw) =>
        Route.parseStatementRowsAux ls inTable
          (some (Route.mkRow dateRaw valueDateRaw restRaw))
          (match current with | some c => rows ++ [c] | none => rows)
      | none =>
        match current with
        | some c =>
          if !looksLikeHeader line then
            Route.parseStatementRowsAux ls inTable
              (some { c with particulars := trimStr (c.particulars ++ ' ' :: line) }) rows
          else Route.parseStatementRowsAux ls inTable (some c) rows
        | none => Route.parseStatementRowsAux ls inTable none rows

/-- Embeds `parseStatementRows` (route.ts:306). -/
def Route.parseStatementRows (text : Str) : List Route.ParsedRow :=
  (Route.parseStatementRowsAux (linesOf text) false none []).filter
    (fun r => r.particulars.length ≠ 0)

/-- One step of the sign-resolution chain of `toTxns` (route.ts:388-399).
Unlike the generic copy there is a sixth rule: a lone balance with no prior
balance takes its sign from `balanceType`, where only an explicit `CR` gives
a positive amount — `DR` and an absent marker both give the negative one. -/
def Route.resolveAmount (prevBalance : Option ℚ) (r : Route.ParsedRow)
    (hasDeposit hasWithdrawal : Bool) : ℚ :=
  if hasDeposit && hasWithdrawal then r.deposit.getD 0 - r.withdrawal.getD 0
  else if hasDeposit then r.deposit.getD 0
  else if hasWithdrawal then -(r.withdrawal.getD 0)
  else
    match r.balance, prevBalance with
    | some b, some pb => b - pb
    | _, _ =>
      match r.txnAmount with
      | some ta => if creditHintTest r.particulars then |ta| else -|ta|
      | none =>
        match r.balance with
        | some b => if r.balanceType = some DrCr.CR then |b| else -|b|
        | none => 0

/-- The row loop of `toTxns` (route.ts:380-419).  The carried balance is
sign-adjusted by `balanceType` (`DR` balances stored negative); an
opening-balance row still updates it but produces no transaction. -/
def Route.toTxnsAux : List Route.ParsedRow → Nat → Option ℚ → List Txn
  | [], _, _ => []
  | r :: rs, i, prevBalance =>
    let isOpeningBalance := hasSub "opening balance".toList (lowerStr r.particulars)
    let hasDeposit := match r.deposit with | some d => decide (0 < d) | none => false
    let hasWithdrawal := match r.withdrawal with | some w => decide (0 < w) | none => false
    let amount := Route.resolveAmount prevBalance r hasDeposit hasWithdrawal
    let prevBalance' :=
      match r.balance with
      | some b => some (if r.balanceType = some DrCr.DR then -|b| else |b|)
      | none => prevBalance
    if isOpeningBalance then Route.toTxnsAux rs (i + 1) prevBalance'
    else
      { id := r.date ++ '-' :: natStr (i + 1)
        date := r.date
        description := r.particulars
        amount := amount
        drCr := some (if 0 ≤ amount then DrCr.CR else DrCr.DR)
        sourceParser := none
        currency := "INR".toList
        category := inferCategory r.particulars
        confidence := if hasDeposit || hasWithdrawal then 0.82 else 0.62 } ::
        Route.toTxnsAux rs (i + 1) prevBalance'

/-- Embeds `toTxns` (route.ts:376). -/
def Route.toTxns (rows : List Route.ParsedRow) : List Txn :=
  Route.toTxnsAux rows 0 none

/-- Embeds `parseTransactionsFromText` (route.ts:424): run the registry and
re-identify the winning transactions. -/
def parseTransactionsFromText (text : Str) : List Txn :=
  let result := runParserPipeline text
  result.txns.enum.map (fun p =>
    { id := p.2.date ++ '-' :: result.parserId ++ '-' :: natStr (p.1 + 1)
      date := p.2.date
      description := p.2.description
      amount := p.2.amount
      drCr := some p.2.drCr
      sourceParser := some p.2.sourceParser
      currency := p.2.currency
      category := p.2.category
      confidence := p.2.confidence })


/-! ## The insights engine (`route.ts:454-563`)

`Array.prototype.sort` is stable in JavaScript, and the comparators used are
`(a, b) => b.key - a.key` (descending) or `localeCompare` on `yyyy-mm` keys
(ascending, lexicographic on these ASCII strings).  Both are modelled by a
stable insertion sort.  JavaScript `Map` iteration follows key-insertion
order, modelled by association lists whose updates keep the entry position. -/

def insertByDesc {α : Type} (key : α → ℚ) (a : α) : List α → List α
  | [] => [a]
  | b :: l => if key b ≤ key a then a :: b :: l else b :: insertByDesc key a l

/-- Stable sort, descending by a rational key (earlier elements win ties). -/
def sortByDesc {α : Type} (key : α → ℚ) : List α → List α
  | [] => []
  | a :: l => insertByDesc key a (sortByDesc key l)

def lexLe : Str → Str → Bool
  | [], _ => true
  | _ :: _, [] => false
  | x :: xs, y :: ys => if x < y then true else if y < x then false else lexLe xs ys

def insertByLexAsc {α : Type} (key : α → Str) (a : α) : List α → List α
  | [] => [a]
  | b :: l => if lexLe (key a) (key b) then a :: b :: l else b :: insertByLexAsc key a l

/-- Stable sort, ascending in lexicographic key order (models the
`localeCompare` sort on `yyyy-mm` keys). -/
def sortByLexAsc {α : Type} (key : α → Str) : List α → List α
  | [] => []
  | a :: l => insertByLexAsc key a (sortByLexAsc key l)

/-- `t.drCr ? t.drCr === "DR" : t.amount < 0` (route.ts:455). -/
def isDebitT (t : Txn) : Bool :=
  match t.drCr with
  | some d => d = DrCr.DR
  | none => decide (t.amount < 0)

/-- `t.drCr ? t.drCr === "CR" : t.amount > 0` (route.ts:456). -/
def isCreditT (t : Txn) : Bool :=
  match t.drCr with
  | some d => d = DrCr.CR
  | none => decide (0 < t.amount)

def debitsOf (txns : List Txn) : List Txn := txns.filter isDebitT

def creditsOf (txns : List Txn) : List Txn := txns.filter isCreditT

def totalDebits (txns : List Txn) : ℚ :=
  (debitsOf txns).foldl (fun s t => s + |t.amount|) 0

def totalCredits (txns : List Txn) : ℚ :=
  (creditsOf txns).foldl (fun s t => s + |t.amount|) 0

/-- `reduce` of route.ts:460: the debit of maximal magnitude (first wins). -/
def topExpenseTxn (txns : List Txn) : Option Txn :=
  (debitsOf txns).foldl
    (fun best t =>
      match best with
      | none => some t
      | some b => if |b.amount| < |t.amount| then some t else some b)
    none

/-- `reduce` of route.ts:464: the credit of maximal signed amount. -/
def topCreditTxn (txns : List Txn) : Option Txn :=
  (creditsOf txns).foldl
    (fun best t =>
      match best with
      | none => some t
      | some b => if b.amount < t.amount then some t else some b)
    none

structure CatEntry where
  category : Str
  count : Nat
  total : ℚ
deriving DecidableEq, Repr

/-- `categoryMap` update (route.ts:470-475): a `Map` entry keeps its position,
a new key is appended. -/
def upsertCat (k : Str) (amt : ℚ) : List (Str × Nat × ℚ) → List (Str × Nat × ℚ)
  | [] => [(k, 1, amt)]
  | (k', c, tot) :: rest =>
    if k' = k then (k', c + 1, tot + amt) :: rest
    else (k', c, tot) :: upsertCat k amt rest

def categoryMapOf (txns : List Txn) : List (Str × Nat × ℚ) :=
  txns.foldl (fun acc t => upsertCat t.category |t.amount| acc) []

def categoryBreakdownOf (txns : List Txn) : List CatEntry :=
  sortByDesc (fun e => e.total)
    ((categoryMapOf txns).map (fun e => CatEntry.mk e.1 e.2.1 e.2.2))

structure MonthEntry where
  month : Str
  income : ℚ
  expense : ℚ
  net : ℚ
deriving DecidableEq, Repr

def upsertMonth (k : Str) (isCR : Bool) (amt : ℚ) :
    List (Str × ℚ × ℚ) → List (Str × ℚ × ℚ)
  | [] => [(k, if isCR then (amt, 0) else (0, amt))]
  | (k', inc, exp) :: rest =>
    if k' = k then (k', if isCR then (inc + amt, exp) else (inc, exp + amt)) :: rest
    else (k', inc, exp) :: upsertMonth k isCR amt rest

/-- `monthMap` accumulation (route.ts:480-489): transactions whose date has no
`yyyy-mm-dd` shape are skipped silently. -/
def monthMapOf (txns : List Txn) : List (Str × ℚ × ℚ) :=
  txns.foldl
    (fun acc t =>
      match monthKey t.date with
      | none => acc
      | some mk =>
        let ty := match t.drCr with
          | some d => d
          | none => if 0 ≤ t.amount then DrCr.CR else DrCr.DR
        upsertMonth mk (ty = DrCr.CR) |t.amount| acc)
    []

def monthOverMonthOf (txns : List Txn) : List MonthEntry :=
  (sortByLexAsc (fun e => e.1) (monthMapOf txns)).map
    (fun e => MonthEntry.mk e.1 e.2.1 e.2.2 (e.2.1 - e.2.2))

/-! ### Merchant normalisation and subscriptions -/

def MERCHANT_STOPWORDS : List Str :=
  ["UPI", "IMPS", "NEFT", "RTGS", "POS", "ATM", "TO", "BY", "TRANSFER",
   "PAYMENT", "DEBIT", "CREDIT", "REF", "TXN", "ID"].map String.toList

/-- Left `\b` boundary: the previous character (if any) is not a word
character (the first character of every stop word is one). -/
def boundaryL (prev : Option Char) : Bool :=
  match prev with | none => true | some p => !isWordC p

/-- Right `\b` boundary: the next character (if any) is not a word character
(the last character of every stop word is one). -/
def boundaryR (rest : Str) : Bool :=
  match rest with | [] => true | r :: _ => !isWordC r

/-- A stop word matching at the current position with `\b` boundaries on both
sides (the description is already upper-cased, so matching is literal). -/
def matchWordAt (w : Str) (prev : Option Char) (s : Str) : Option Str :=
  if !w.isEmpty && w.isPrefixOf s && boundaryL prev && boundaryR (s.drop w.length) then
    some (s.drop w.length)
  else none

theorem findSomeImp {α β : Type} {f : α → Option β} {b : β} :
    ∀ {l : List α}, l.findSome? f = some b → ∃ a ∈ l, f a = some b := by
  intro l
  induction l with
  | nil => intro h; simp [List.findSome?] at h
  | cons a t ih =>
    intro h
    rw [List.findSome?_cons] at h
    match hf : f a with
    | some x =>
      rw [hf] at h
      exact ⟨a, List.mem_cons_self a t, hf.trans h⟩
    | none =>
      rw [hf] at h
      obtain ⟨a', ha', hfa'⟩ := ih h
      exact ⟨a', List.mem_cons_of_mem a ha', hfa'⟩

def stopwordHit (prev : Option Char) (s : Str) : Option (Str × Str) :=
  MERCHANT_STOPWORDS.findSome? (fun w =>
    (matchWordAt w prev s).map (fun rem => (w, rem)))

theorem matchWordAt_lt {w : Str} {prev : Option Char} {s rem : Str}
    (h : matchWordAt w prev s = some rem) : rem.length < s.length := by
  unfold matchWordAt at h
  split at h
  · next hcond =>
    simp only [Bool.and_eq_true, Bool.not_eq_true'] at hcond
    obtain ⟨⟨⟨hne, hpre⟩, _⟩, _⟩ := hcond
    have hw : 1 ≤ w.length := by
      cases w with
      | nil => simp [List.isEmpty] at hne
      | cons a l => simp
    have hle : w.length ≤ s.length :=
      (List.isPrefixOf_iff_prefix.mp hpre).length_le
    have hrem : rem = s.drop w.length := (Option.some.inj h).symm
    subst hrem
    simp only [List.length_drop]
    omega
  · exact absurd h (by simp)

/-- The global stop-word replacement of `normalizeMerchant` (route.ts:448):
each matched word becomes one space, and scanning resumes after the match
(`lastIndex`, modelled by the skip counter); the `\b` boundaries are judged
on the original characters, which `prev` tracks one by one. -/
def stripSWAux : Option Char → Nat → Str → Str
  | _, _, [] => []
  | _, k + 1, c :: rest => stripSWAux (some c) k rest
  | prev, 0, c :: rest =>
    match stopwordHit prev (c :: rest) with
    | some (w, _) => ' ' :: stripSWAux (some c) (w.length - 1) rest
    | none => c :: stripSWAux (some c) 0 rest

def stripStopwords (s : Str) : Str := stripSWAux none 0 s

def isMerchPunct (c : Char) : Bool :=
  isDigitC c || c = '#' || c = '*' || c = '.' || c = '_' || c = '/' || c = '-'

/-- The route.ts:449 replacement: runs of digits or of `# * . _ / -` become a
single space (the flag records being inside a run already replaced). -/
def squashPunctAux : Bool → Str → Str
  | _, [] => []
  | inRun, c :: rest =>
    if isMerchPunct c then
      if inRun then squashPunctAux true rest else ' ' :: squashPunctAux true rest
    else c :: squashPunctAux false rest

def squashPunct (s : Str) : Str := squashPunctAux false s

/-- Embeds `normalizeMerchant` (route.ts:445): uppercase, erase stop words,
erase digit/punctuation runs, collapse whitespace, trim. -/
def normalizeMerchant (description : Str) : Str :=
  collapseWs (squashPunct (stripStopwords (upperStr description)))

structure SubGroup where
  merchant : Str
  count : Nat
  monthCount : Nat
  avgAmount : ℚ
  totalAmount : ℚ
deriving DecidableEq, Repr

structure SubEntry where
  merchant : Str
  count : Nat
  avgAmount : ℚ
  totalAmount : ℚ
deriving DecidableEq, Repr

/-- `merchantGroups` update (route.ts:498-500): the new transaction is pushed
at the end of its merchant's list. -/
def upsertGroup (k : Str) (t : Txn) : List (Str × List Txn) → List (Str × List Txn)
  | [] => [(k, [t])]
  | (k', l) :: rest =>
    if k' = k then (k', l ++ [t]) :: rest
    else (k', l) :: upsertGroup k t rest

/-- The debit-grouping loop of route.ts:494-501; merchants whose normal form
is empty or shorter than 3 characters are skipped. -/
def merchantGroups (txns : List Txn) : List (Str × List Txn) :=
  (debitsOf txns).foldl
    (fun acc t =>
      let merchant := normalizeMerchant t.description
      if merchant.isEmpty || merchant.length < 3 then acc
      else upsertGroup merchant t acc)
    []

/-- Embeds the `subscriptions` computation (route.ts:502-523). -/
def subscriptionsOf (txns : List Txn) : List SubEntry :=
  ((sortByDesc (fun g => g.totalAmount)
      (((merchantGroups txns).map (fun e =>
          let months := ((e.2.map (fun t => monthKey t.date)).filterMap id).dedup
          let total := e.2.foldl (fun s t => s + |t.amount|) 0
          SubGroup.mk e.1 e.2.length months.length (total / (e.2.length : ℚ)) total)).filter
        (fun g => decide (2 ≤ g.count) && decide (2 ≤ g.monthCount)))).take 10).map
    (fun g => SubEntry.mk g.merchant g.count g.avgAmount g.totalAmount)

/-! ### Unusual spends -/

structure UnusualEntry where
  id : Str
  date : Str
  description : Str
  amount : ℚ
deriving DecidableEq, Repr

def debitMagnitudes (txns : List Txn) : List ℚ :=
  (debitsOf txns).map (fun t => |t.amount|)

/-- `mean` (route.ts:526): `debitAbs.length ? sum / length : 0`. -/
def meanDebit (txns : List Txn) : ℚ :=
  let l := debitMagnitudes txns
  if l.length ≠ 0 then (l.foldl (fun a b => a + b) 0) / (l.length : ℚ) else 0

/-- `variance` (route.ts:527): population variance, `0` unless at least two
debit magnitudes exist. -/
def varianceDebit (txns : List Txn) : ℚ :=
  let l := debitMagnitudes txns
  if 1 < l.length then
    (l.foldl (fun s v => s + (v - meanDebit txns) * (v - meanDebit txns)) 0) / (l.length : ℚ)
  else 0

/-- `mag > mean + 2 * Math.sqrt(varq)` written without the square root; the
lemma `beatsStdDevGap_iff` below shows this equals the source formula over
the reals whenever `0 ≤ varq` (and `varianceDebit` is never negative). -/
def beatsStdDevGap (mean varq mag : ℚ) : Bool :=
  decide (mean < mag) && decide (4 * varq < (mag - mean) * (mag - mean))

/-- The filter of route.ts:534:
`|amount| > Math.max(mean * 1.8, mean + 2 * stdDev) && |amount| > 1000`. -/
def isUnusualAmt (mean varq mag : ℚ) : Bool :=
  (decide (mean * 1.8 < mag) && beatsStdDevGap mean varq mag) && decide ((1000 : ℚ) < mag)

/-- Embeds the `unusualSpends` computation (route.ts:533-542). -/
def unusualSpendsOf (txns : List Txn) : List UnusualEntry :=
  ((sortByDesc (fun t => |t.amount|)
      ((debitsOf txns).filter
        (fun t => isUnusualAmt (meanDebit txns) (varianceDebit txns) |t.amount|))).take 10).map
    (fun t => UnusualEntry.mk t.id t.date t.description |t.amount|)

structure Insights where
  transactionCount : Nat
  totalDebits : ℚ
  totalCredits : ℚ
  netFlow : ℚ
  incomeExpenseRatio : Option ℚ
  avgDebit : ℚ
  avgCredit : ℚ
  categoryBreakdown : List CatEntry
  monthOverMonth : List MonthEntry
  subscriptions : List SubEntry
  unusualSpends : List UnusualEntry
  topExpense : Option (Str × ℚ)
  topCredit : Option (Str × ℚ)
deriving DecidableEq, Repr

/-- Embeds `buildInsights` (route.ts:454): a pure projection of the
transaction list.  `incomeExpenseRatio` is `null` (here `none`) when there
are no debits — the division by zero is never taken. -/
def buildInsights (txns : List Txn) : Insights where
  transactionCount := txns.length
  totalDebits := totalDebits txns
  totalCredits := totalCredits txns
  netFlow := totalCredits txns - totalDebits txns
  incomeExpenseRatio :=
    if 0 < totalDebits txns then some (totalCredits txns / totalDebits txns) else none
  avgDebit :=
    if (debitsOf txns).length ≠ 0 then totalDebits txns / ((debitsOf txns).length : ℚ) else 0
  avgCredit :=
    if (creditsOf txns).length ≠ 0 then totalCredits txns / ((creditsOf txns).length : ℚ) else 0
  categoryBreakdown := categoryBreakdownOf txns
  monthOverMonth := monthOverMonthOf txns
  subscriptions := subscriptionsOf txns
  unusualSpends := unusualSpendsOf txns
  topExpense := (topExpenseTxn txns).map (fun t => (t.description, |t.amount|))
  topCredit := (topCreditTxn txns).map (fun t => (t.description, t.amount))

/-! ## The registry under strategy failure

`runParserPipeline` contains no `try`/`catch`, so a JavaScript exception
thrown by a strategy's `canParse` or `parse` unwinds through the loop.  The
following model makes the possibility of throwing explicit (`Except` errors)
while keeping the loop body of index.ts:16-22 unchanged: every strategy call
is propagated, never caught. -/

structure EStatementParser where
  id : Str
  canParse : Str → Except Str ℚ
  parse : Str → Except Str (List ParserTxn)

def runParserPipelineEAux : List EStatementParser → Str → ParserRunResult →
    Except Str ParserRunResult
  | [], _, best => Except.ok best
  | p :: ps, text, best => do
    let hint ← p.canParse text
    if hint ≤ 0 then runParserPipelineEAux ps text best
    else do
      let txns ← p.parse text
      let score := parserScore txns hint
      if best.score < score then
        runParserPipelineEAux ps text { parserId := p.id, score := score, txns := txns }
      else runParserPipelineEAux ps text best

/-- `runParserPipeline` over possibly-throwing strategies: the loop of
index.ts with exceptions made explicit.  Because the source has no handler,
an error from any consulted strategy is the result of the whole run. -/
def runParserPipelineE (ps : List EStatementParser) (text : Str) : Except Str ParserRunResult :=
  runParserPipelineEAux ps text { parserId := "none".toList, score := 0, txns := [] }

/-- A total strategy, seen as a throwing-capable one. -/
def liftParser (p : StatementParser) : EStatementParser where
  id := p.id
  canParse := fun t => Except.ok (p.canParse t)
  parse := fun t => Except.ok (p.parse t)


/-! ## Helper lemmas -/

theorem foldlAbsShift : ∀ (l : List Txn) (c : ℚ),
    l.foldl (fun s t => s + |t.amount|) c = c + l.foldl (fun s t => s + |t.amount|) 0
  | [], c => by simp
  | a :: l, c => by
    simp only [List.foldl_cons]
    rw [foldlAbsShift l (c + |a.amount|), foldlAbsShift l (0 + |a.amount|)]
    ring

theorem foldlAbs_nonneg : ∀ l : List Txn, 0 ≤ l.foldl (fun s t => s + |t.amount|) 0
  | [] => le_refl 0
  | a :: l => by
    simp only [List.foldl_cons]
    rw [foldlAbsShift l (0 + |a.amount|)]
    have h1 : (0 : ℚ) ≤ |a.amount| := abs_nonneg _
    have h2 := foldlAbs_nonneg l
    linarith

theorem totalDebits_nonneg (txns : List Txn) : 0 ≤ totalDebits txns :=
  foldlAbs_nonneg _

theorem totalCredits_nonneg (txns : List Txn) : 0 ≤ totalCredits txns :=
  foldlAbs_nonneg _

theorem totalDebits_append (txns : List Txn) (t : Txn) :
    totalDebits (txns ++ [t]) =
      totalDebits txns + (if isDebitT t then |t.amount| else 0) := by
  unfold totalDebits debitsOf
  rw [List.filter_append, List.foldl_append]
  by_cases h : isDebitT t <;> simp [h, List.filter_cons]

theorem totalCredits_append (txns : List Txn) (t : Txn) :
    totalCredits (txns ++ [t]) =
      totalCredits txns + (if isCreditT t then |t.amount| else 0) := by
  unfold totalCredits creditsOf
  rw [List.filter_append, List.foldl_append]
  by_cases h : isCreditT t <;> simp [h, List.filter_cons]

/-- C9: For every transaction list L and every additional transaction t, the
insights computed over L ++ [t] satisfy totalDebits + totalCredits >= the
same sum computed over L alone (appending a transaction never decreases the
combined total), and for every transaction list, netFlow <= totalCredits. -/
theorem insights_totals_monotone_netflow_le (txns : List Txn) (t : Txn) :
    (buildInsights txns).totalDebits + (buildInsights txns).totalCredits ≤
        (buildInsights (txns ++ [t])).totalDebits + (buildInsights (txns ++ [t])).totalCredits
      ∧ (buildInsights txns).netFlow ≤ (buildInsights txns).totalCredits := by
  constructor
  · show totalDebits txns + totalCredits txns ≤
      totalDebits (txns ++ [t]) + totalCredits (txns ++ [t])
    rw [totalDebits_append, totalCredits_append]
    have h1 : (0 : ℚ) ≤ (if isDebitT t then |t.amount| else 0) := by
      by_cases h : isDebitT t <;> simp [h, abs_nonneg]
    have h2 : (0 : ℚ) ≤ (if isCreditT t then |t.amount| else 0) := by
      by_cases h : isCreditT t <;> simp [h, abs_nonneg]
    linarith
  · show totalCredits txns - totalDebits txns ≤ totalCredits txns
    have := totalDebits_nonneg txns
    linarith

/-! ## C2: the lone-balance sign fallback -/

/-- C2 counterexample: a row carrying only a balance (100), with NO
balanceType and no previous balance, produces a transaction of amount -100.
The claim predicts a positive amount ("defaults to positive when balanceType
is absent"), but route.ts:398 writes
`amount = r.balanceType === "CR" ? Math.abs(r.balance) : -Math.abs(r.balance)`,
so an absent marker falls into the negative branch. -/
theorem balance_only_default_negative_counterexample :
    (Route.toTxns [⟨"2024-01-01".toList, none, "MISC STORE".toList,
        none, none, none, some 100, none⟩]).map Txn.amount = [-100]
      ∧ ∀ t ∈ Route.toTxns [⟨"2024-01-01".toList, none, "MISC STORE".toList,
          none, none, none, some 100, none⟩], t.amount < 0 := by
  constructor
  · rfl
  · decide

/-- C2 (amended): for a parsed row carrying only a balance value and no known
previous balance, route.ts `toTxns` emits a transaction whose amount is
`+|balance|` exactly when `balanceType` is CR, and `-|balance|` when it is DR
OR ABSENT (absent does not default to positive); the generic parser's
`rowsToTxns` (whose rows have no balanceType field at all) emits no
transaction for such a row. -/
theorem balance_only_sign_from_balanceType
    (date : Str) (vd : Option Str) (desc : Str) (b : ℚ) (bt : Option DrCr)
    (gdate gdesc : Str)
    (hob : hasSub "opening balance".toList (lowerStr desc) = false)
    (hg : hasSub "opening balance".toList (lowerStr gdesc) = false) :
    (Route.toTxns [⟨date, vd, desc, none, none, none, some b, bt⟩]).map Txn.amount =
        [if bt = some DrCr.CR then |b| else -|b|]
      ∧ Generic.rowsToTxns [⟨gdate, gdesc, none, none, none, some b⟩] = [] := by
  have hob' : hasSub ['o', 'p', 'e', 'n', 'i', 'n', 'g', ' ', 'b', 'a', 'l', 'a', 'n', 'c', 'e']
      (lowerStr desc) = false := hob
  have hg' : hasSub ['o', 'p', 'e', 'n', 'i', 'n', 'g', ' ', 'b', 'a', 'l', 'a', 'n', 'c', 'e']
      (lowerStr gdesc) = false := hg
  constructor
  · simp [Route.toTxns, Route.toTxnsAux, Route.resolveAmount, hob']
  · simp [Generic.rowsToTxns, Generic.rowsToTxnsAux, hg']

/-- Witness for `balance_only_sign_from_balanceType` at concrete inputs. -/
theorem balance_only_sign_witness :
    ((Route.toTxns [⟨"2024-02-02".toList, none, "SHOP".toList, none, none, none,
          some 50, some DrCr.CR⟩]).map Txn.amount =
        [if (some DrCr.CR : Option DrCr) = some DrCr.CR then |(50 : ℚ)| else -|(50 : ℚ)|])
      ∧ Generic.rowsToTxns [⟨"2024-02-02".toList, "SHOP".toList, none, none, none,
          some (50 : ℚ)⟩] = [] :=
  balance_only_sign_from_balanceType "2024-02-02".toList none "SHOP".toList 50
    (some DrCr.CR) "2024-02-02".toList "SHOP".toList (by decide) (by decide)

/-! ## C5: shape of scanned money tokens -/

theorem takeWhileAppendAll {α : Type} {p : α → Bool} (b : α) (r : List α) (hb : p b = false) :
    ∀ l : List α, (∀ x ∈ l, p x = true) →
      (l ++ b :: r).takeWhile p = l ∧ (l ++ b :: r).dropWhile p = b :: r := by
  intro l
  induction l with
  | nil =>
    intro _
    constructor <;> simp [List.takeWhile_cons, List.dropWhile_cons, hb]
  | cons a t ih =>
    intro hl
    have ha : p a = true := hl a (by simp)
    obtain ⟨h1, h2⟩ := ih (fun x hx => hl x (by simp [hx]))
    constructor
    · simp [List.takeWhile_cons, ha, h1]
    · simp [List.dropWhile_cons, ha, h2]

theorem matchMoneyCore_shape {s tok rem : Str} (h : matchMoneyCore s = some (tok, rem)) :
    ∃ (c : Char) (run frac : Str), tok = c :: run ++ '.' :: frac
      ∧ isDigitC c = true
      ∧ (∀ x ∈ run, isDigitC x = true ∨ x = ',')
      ∧ (∀ x ∈ frac, isDigitC x = true)
      ∧ (frac.length = 1 ∨ frac.length = 2) := by
  unfold matchMoneyCore at h
  split at h
  · exact absurd h (by simp)
  · next c rest =>
    split at h
    · next hc =>
      have hrun : ∀ x ∈ rest.takeWhile (fun d => isDigitC d || d = ','),
          isDigitC x = true ∨ x = ',' := by
        intro x hx
        have := List.mem_takeWhile_imp hx
        simpa using this
      split at h
      · next heq =>
        rename_i d1 tl
        split at h
        · next h1 =>
          split at h
          · next d2 tl2 =>
            split at h
            · next h2 =>
              have htok := congrArg Prod.fst (Option.some.inj h)
              refine ⟨c, _, [d1, d2], htok.symm, hc, hrun, ?_, Or.inr rfl⟩
              intro x hx
              rcases List.mem_cons.mp hx with rfl | hx
              · exact h1
              · rcases List.mem_cons.mp hx with rfl | hx
                · exact h2
                · exact absurd hx (List.not_mem_nil x)
            · next h2 =>
              have htok := congrArg Prod.fst (Option.some.inj h)
              refine ⟨c, _, [d1], htok.symm, hc, hrun, ?_, Or.inl rfl⟩
              intro x hx
              rcases List.mem_cons.mp hx with rfl | hx
              · exact h1
              · exact absurd hx (List.not_mem_nil x)
          · have htok := congrArg Prod.fst (Option.some.inj h)
            refine ⟨c, _, [d1], htok.symm, hc, hrun, ?_, Or.inl rfl⟩
            intro x hx
            rcases List.mem_cons.mp hx with rfl | hx
            · exact h1
            · exact absurd hx (List.not_mem_nil x)
        · exact absurd h (by simp)
      · exact absurd h (by simp)
    · exact absurd h (by simp)

theorem normalizeMoneyTok {c : Char} {run frac : Str}
    (hc : isDigitC c = true)
    (hrun : ∀ x ∈ run, isDigitC x = true ∨ x = ',')
    (hfrac : ∀ x ∈ frac, isDigitC x = true) :
    normalizeAmountToken (c :: run ++ '.' :: frac) =
      c :: run.filter (fun x => x ≠ ',') ++ '.' :: frac := by
  have hcne : c ≠ ',' := by
    intro hcc
    rw [hcc] at hc
    exact absurd hc (by decide)
  unfold normalizeAmountToken
  have hkeep : (c :: run ++ '.' :: frac).filter
      (fun x => isDigitC x || x = ',' || x = '.' || x = '-') = c :: run ++ '.' :: frac := by
    rw [List.filter_eq_self]
    intro x hx
    rcases List.mem_append.mp hx with hx | hx
    · rcases List.mem_cons.mp hx with rfl | hx
      · simp [hc]
      · rcases hrun x hx with hd | hcm
        · simp [hd]
        · subst hcm
          simp
    · rcases List.mem_cons.mp hx with rfl | hx
      · simp
      · simp [hfrac x hx]
  rw [hkeep, List.filter_append, List.filter_cons, List.filter_cons]
  have hfr : frac.filter (fun x => x ≠ ',') = frac := by
    rw [List.filter_eq_self]
    intro x hx
    have hxd := hfrac x hx
    simp only [ne_eq, decide_eq_true_eq]
    intro hxc
    rw [hxc] at hxd
    exact absurd hxd (by decide)
  simp [hcne, hfr]
  intro a ha hac
  have hda := hfrac a ha
  rw [hac] at hda
  exact absurd hda (by decide)

theorem isPlainDecimalMoney {c : Char} {run frac : Str}
    (hc : isDigitC c = true)
    (hrun : ∀ x ∈ run, isDigitC x = true)
    (hfrac : ∀ x ∈ frac, isDigitC x = true)
    (hlen : frac.length = 1 ∨ frac.length = 2) :
    isPlainDecimal (c :: run ++ '.' :: frac) = true := by
  have hall : ∀ x ∈ c :: run, isDigitC x = true := by
    intro x hx
    rcases List.mem_cons.mp hx with rfl | hx
    · exact hc
    · exact hrun x hx
  have hdot : isDigitC '.' = false := by decide
  obtain ⟨h1, h2⟩ := @takeWhileAppendAll Char isDigitC '.' frac hdot (c :: run) hall
  unfold isPlainDecimal
  rw [show ((c :: run) ++ '.' :: frac : Str) = c :: run ++ '.' :: frac from rfl] at h1 h2
  rw [h1, h2]
  simp only [Bool.and_eq_true, decide_eq_true_eq]
  refine ⟨by simp, ?_⟩
  have hf : frac.all isDigitC = true := by
    rw [List.all_eq_true]
    exact hfrac
  rcases hlen with hl | hl <;> simp [hf, hl]

theorem routeParseMoneyTok {c : Char} {run frac : Str}
    (hc : isDigitC c = true)
    (hrun : ∀ x ∈ run, isDigitC x = true ∨ x = ',')
    (hfrac : ∀ x ∈ frac, isDigitC x = true)
    (hlen : frac.length = 1 ∨ frac.length = 2) :
    ∃ q, Route.parseAmountToken (c :: run ++ '.' :: frac) = some q := by
  unfold Route.parseAmountToken
  have hrun' : ∀ x ∈ run.filter (fun x => x ≠ ','), isDigitC x = true := by
    intro x hx
    have hmem := List.mem_of_mem_filter hx
    have hne := List.of_mem_filter hx
    rcases hrun x hmem with hd | rfl
    · exact hd
    · simp at hne
  rw [normalizeMoneyTok hc hrun hfrac, isPlainDecimalMoney hc hrun' hfrac hlen]
  exact ⟨decValue (c :: run.filter (fun x => x ≠ ',') ++ '.' :: frac), by simp⟩

theorem normalizeMinus (L : Str) :
    normalizeAmountToken ('-' :: L) = '-' :: normalizeAmountToken L := by
  unfold normalizeAmountToken
  simp [List.filter_cons]

theorem commonParseMoneyTok {c : Char} {run frac : Str}
    (hc : isDigitC c = true)
    (hrun : ∀ x ∈ run, isDigitC x = true ∨ x = ',')
    (hfrac : ∀ x ∈ frac, isDigitC x = true)
    (hlen : frac.length = 1 ∨ frac.length = 2) :
    (∃ q, Common.parseAmountToken (c :: run ++ '.' :: frac) = some q)
      ∧ ∃ q, Common.parseAmountToken ('-' :: c :: run ++ '.' :: frac) = some q := by
  have hrun' : ∀ x ∈ run.filter (fun x => x ≠ ','), isDigitC x = true := by
    intro x hx
    have hmem := List.mem_of_mem_filter hx
    have hne := List.of_mem_filter hx
    rcases hrun x hmem with hd | rfl
    · exact hd
    · simp at hne
  have hcd : ¬c = '-' := by
    intro hcc
    rw [hcc] at hc
    exact absurd hc (by decide)
  constructor
  · unfold Common.parseAmountToken
    rw [normalizeMoneyTok hc hrun hfrac]
    have hh : isSignedPlainDecimal (c :: run.filter (fun x => x ≠ ',') ++ '.' :: frac) = true := by
      unfold isSignedPlainDecimal
      rw [if_neg (by simpa using hcd)]
      exact isPlainDecimalMoney hc hrun' hfrac hlen
    refine ⟨decValue (c :: run.filter (fun x => x ≠ ',') ++ '.' :: frac), ?_⟩
    rw [hh]
    simp
  · unfold Common.parseAmountToken
    rw [show ('-' :: c :: run ++ '.' :: frac : Str) = '-' :: (c :: run ++ '.' :: frac) from rfl]
    rw [normalizeMinus, normalizeMoneyTok hc hrun hfrac]
    have hh : isSignedPlainDecimal
        ('-' :: (c :: run.filter (fun x => x ≠ ',') ++ '.' :: frac)) = true := by
      unfold isSignedPlainDecimal
      rw [if_pos (by simp)]
      exact isPlainDecimalMoney hc hrun' hfrac hlen
    refine ⟨decValue ('-' :: (c :: run.filter (fun x => x ≠ ',') ++ '.' :: frac)), ?_⟩
    rw [hh]
    simp

theorem matchMoneyAt_props {s tok rem : Str} (h : matchMoneyAt s = some (tok, rem)) :
    '.' ∈ tok
      ∧ (tok.head? ≠ some '-' → ∃ q, Route.parseAmountToken tok = some q)
      ∧ (∃ q, Common.parseAmountToken tok = some q) := by
  unfold matchMoneyAt at h
  split at h
  · split at h
    · next t r hc =>
      obtain ⟨c, run, frac, htok, hcd, hrun, hfrac, hlen⟩ := matchMoneyCore_shape hc
      have htokeq : tok = '-' :: t := (congrArg Prod.fst (Option.some.inj h)).symm
      subst htokeq
      subst htok
      refine ⟨?_, ?_, ?_⟩
      · simp
      · intro hne
        exact absurd rfl hne
      · exact (commonParseMoneyTok hcd hrun hfrac hlen).2
    · exact absurd h (by simp)
  · obtain ⟨c, run, frac, htok, hcd, hrun, hfrac, hlen⟩ := matchMoneyCore_shape h
    subst htok
    refine ⟨?_, ?_, ?_⟩
    · simp
    · intro _
      exact routeParseMoneyTok hcd hrun hfrac hlen
    · exact (commonParseMoneyTok hcd hrun hfrac hlen).1

theorem scanMoneyAux_tok : ∀ (s : Str) (i k : Nat) (p : Nat × Str), p ∈ scanMoneyAux s i k →
    ∃ s' rem, matchMoneyAt s' = some (p.2, rem) := by
  intro s
  induction s with
  | nil =>
    intro i k p hp
    simp [scanMoneyAux] at hp
  | cons c rest ih =>
    intro i k p hp
    cases k with
    | succ k' =>
      rw [scanMoneyAux] at hp
      exact ih (i + 1) k' p hp
    | zero =>
      rw [scanMoneyAux] at hp
      match hm : matchMoneyAt (c :: rest) with
      | some (tok, rem) =>
        rw [hm] at hp
        rcases List.mem_cons.mp hp with rfl | hp
        · exact ⟨c :: rest, rem, hm⟩
        · exact ih _ _ p hp
      | none =>
        rw [hm] at hp
        exact ih _ _ p hp

/-- Every money token found by the scanner contains a decimal point, and is
accepted by the common `parseAmountToken`; it is accepted by the route
`parseAmountToken` whenever it does not begin with a minus. -/
theorem scanMoney_props (rest : Str) :
    (∀ p ∈ scanMoney rest, '.' ∈ p.2)
      ∧ (∀ p ∈ scanMoney rest, p.2.head? ≠ some '-' → Route.parseAmountToken p.2 ≠ none)
      ∧ (∀ p ∈ scanMoney rest, Common.parseAmountToken p.2 ≠ none) := by
  refine ⟨?_, ?_, ?_⟩ <;> intro p hp
  · obtain ⟨s', rem, h⟩ := scanMoneyAux_tok rest 0 0 p hp
    exact (matchMoneyAt_props h).1
  · intro hne
    obtain ⟨s', rem, h⟩ := scanMoneyAux_tok rest 0 0 p hp
    obtain ⟨q, hq⟩ := (matchMoneyAt_props h).2.1 hne
    rw [hq]
    simp
  · obtain ⟨s', rem, h⟩ := scanMoneyAux_tok rest 0 0 p hp
    obtain ⟨q, hq⟩ := (matchMoneyAt_props h).2.2
    rw [hq]
    simp

/-- The claim's positional assignment rule, as a function of the value list:
three or more values give (withdrawal, deposit, balance) from the last three,
exactly two give (txnAmount, balance), one gives balance only, zero gives
nothing. -/
def tailAssignSpec (vs : List ℚ) : Option ℚ × Option ℚ × Option ℚ × Option ℚ :=
  if 3 ≤ vs.length then
    (vs.get? (vs.length - 3), vs.get? (vs.length - 2), none, vs.get? (vs.length - 1))
  else if vs.length = 2 then (none, none, vs.get? 0, vs.get? 1)
  else if vs.length = 1 then (none, none, none, vs.get? 0)
  else (none, none, none, none)

theorem dropLastThreeGets (vs : List ℚ) (h3 : 3 ≤ vs.length) :
    (vs.drop (vs.length - 3)).get? 0 = vs.get? (vs.length - 3)
      ∧ (vs.drop (vs.length - 3)).get? 1 = vs.get? (vs.length - 2)
      ∧ (vs.drop (vs.length - 3)).get? 2 = vs.get? (vs.length - 1) := by
  refine ⟨?_, ?_, ?_⟩ <;>
    · rw [List.get?_eq_getElem?, List.get?_eq_getElem?, List.getElem?_drop]
      first
      | rfl
      | (congr 1; omega)

theorem mkRowAssign (dateRaw : Str) (vd : Option Str) (rest : Str) :
    ((Route.mkRow dateRaw vd rest).withdrawal, (Route.mkRow dateRaw vd rest).deposit,
        (Route.mkRow dateRaw vd rest).txnAmount, (Route.mkRow dateRaw vd rest).balance) =
      tailAssignSpec ((scanMoney rest).filterMap (fun p => Route.parseAmountToken p.2)) := by
  simp only [Route.mkRow]
  generalize (scanMoney rest).filterMap (fun p => Route.parseAmountToken p.2) = vs
  by_cases h3 : 3 ≤ vs.length
  · have hlen : (vs.drop (vs.length - 3)).length = 3 := by
      rw [List.length_drop]
      omega
    obtain ⟨g0, g1, g2⟩ := dropLastThreeGets vs h3
    rw [tailAssignSpec, if_pos h3]
    simp only [hlen, g0, g1, g2]
    simp
  · by_cases h2 : vs.length = 2
    · obtain ⟨a, b, rfl⟩ := List.length_eq_two.mp h2
      simp [tailAssignSpec]
    · by_cases h1 : vs.length = 1
      · obtain ⟨a, rfl⟩ := List.length_eq_one.mp h1
        simp [tailAssignSpec]
      · have h0 : vs.length = 0 := by omega
        rw [List.length_eq_zero.mp h0]
        simp [tailAssignSpec]

/-- C5 counterexample: in the row tail "PAY -12.34 56.78" there are exactly
two tokens of the money grammar, so the claim's positional rule demands
`(txnAmount, balance)` both set.  But route.ts's `parseAmountToken` rejects
the negative token, leaving a single value: `txnAmount` stays empty and only
`balance` is set. -/
theorem tail_tokens_negative_counterexample :
    (scanMoney "PAY -12.34 56.78".toList).length = 2
      ∧ (Route.mkRow "01/01/2024".toList none "PAY -12.34 56.78".toList).txnAmount = none
      ∧ (Route.mkRow "01/01/2024".toList none "PAY -12.34 56.78".toList).balance ≠ none
      ∧ (Route.mkRow "01/01/2024".toList none "PAY -12.34 56.78".toList).particulars =
          "PAY".toList := by
  refine ⟨by rfl, by rfl, by decide, by rfl⟩

/-- C5 (amended): the tokens of the money grammar (which always contain a
decimal point, so integer-only numbers are never money) fix the description
offset, but each token is re-parsed by the route-local `parseAmountToken`,
which rejects tokens with a leading minus; the positional assignment — three
or more surviving values give (withdrawal, deposit, balance) from the last
three, exactly two give (txnAmount, balance), one gives balance only, zero
gives nothing — applies to the SURVIVING values, not to the matched tokens.
Tokens without a leading minus always survive, and the generic parser's
`parseAmountToken` (common.ts) accepts every matched token, so there the
original positional claim holds. -/
theorem tail_token_assignment (dateRaw : Str) (vd : Option Str) (rest : Str) :
    (((Route.mkRow dateRaw vd rest).withdrawal, (Route.mkRow dateRaw vd rest).deposit,
        (Route.mkRow dateRaw vd rest).txnAmount, (Route.mkRow dateRaw vd rest).balance) =
        tailAssignSpec ((scanMoney rest).filterMap (fun p => Route.parseAmountToken p.2)))
      ∧ (Route.mkRow dateRaw vd rest).particulars =
          collapseWs (rest.take (firstTailIdx (scanMoney rest) rest.length))
      ∧ (∀ p ∈ scanMoney rest, '.' ∈ p.2)
      ∧ (∀ p ∈ scanMoney rest, p.2.head? ≠ some '-' → Route.parseAmountToken p.2 ≠ none)
      ∧ (∀ p ∈ scanMoney rest, Common.parseAmountToken p.2 ≠ none) := by
  obtain ⟨hdot, hroute, hcommon⟩ := scanMoney_props rest
  exact ⟨mkRowAssign dateRaw vd rest, rfl, hdot, hroute, hcommon⟩

/-- Witness for `tail_token_assignment` at a concrete row tail. -/
theorem tail_token_assignment_witness :
    (((Route.mkRow "01/01/2024".toList none "X 1.50 2.50".toList).withdrawal,
        (Route.mkRow "01/01/2024".toList none "X 1.50 2.50".toList).deposit,
        (Route.mkRow "01/01/2024".toList none "X 1.50 2.50".toList).txnAmount,
        (Route.mkRow "01/01/2024".toList none "X 1.50 2.50".toList).balance) =
        tailAssignSpec (((scanMoney "X 1.50 2.50".toList)).filterMap
          (fun p => Route.parseAmountToken p.2)))
      ∧ Route.parseAmountToken "56.78".toList ≠ none :=
  ⟨(tail_token_assignment "01/01/2024".toList none "X 1.50 2.50".toList).1,
    (tail_token_assignment "01/01/2024".toList none "PAY -12.34 56.78".toList).2.2.2.1
      (11, "56.78".toList) (by decide) (by decide)⟩

/-! ## C4: registry selection -/

/-- The score a strategy would obtain on `text`. -/
def specScore (text : Str) (p : StatementParser) : ℚ :=
  parserScore (p.parse text) (p.canParse text)

/-- The run result a winning strategy produces. -/
def mkResult (text : Str) (p : StatementParser) : ParserRunResult :=
  { parserId := p.id, score := specScore text p, txns := p.parse text }

/-- The loop, re-expressed: skipped strategies are exactly those with hint
`≤ 0`, and each consulted strategy replaces the best on a strictly greater
score. -/
theorem pipelineAux_spec (text : Str) : ∀ (ps : List StatementParser) (best : ParserRunResult),
    runParserPipelineAux ps text best =
      (ps.filter (fun p => decide (0 < p.canParse text))).foldl
        (fun b p => if b.score < specScore text p then mkResult text p else b) best := by
  intro ps
  induction ps with
  | nil => intro best; simp [runParserPipelineAux]
  | cons p rest ih =>
    intro best
    rw [runParserPipelineAux, List.filter_cons]
    by_cases hp : p.canParse text ≤ 0
    · rw [if_pos hp, if_neg (by simpa using not_lt.mpr hp)]
      exact ih best
    · have hfp : (decide (0 < p.canParse text)) = true := by
        simpa using lt_of_not_le hp
      rw [if_neg hp, if_pos hfp, List.foldl_cons]
      by_cases hb : best.score < parserScore (p.parse text) (p.canParse text)
      · rw [if_pos hb, if_pos (show best.score < specScore text p from hb)]
        exact ih _
      · rw [if_neg hb, if_neg (show ¬best.score < specScore text p from hb)]
        exact ih best

/-- The first strategy of maximal score in registration order: a later
strategy displaces an earlier one only on a strictly greater score. -/
def firstMaxBy (f : StatementParser → ℚ) : List StatementParser → Option StatementParser
  | [] => none
  | p :: ps =>
    match firstMaxBy f ps with
    | none => some p
    | some q => if f p < f q then some q else some p

theorem foldl_select_spec (text : Str) :
    ∀ (run : List StatementParser) (b : ParserRunResult),
      run.foldl (fun b p => if b.score < specScore text p then mkResult text p else b) b =
        (match firstMaxBy (specScore text) run with
          | none => b
          | some q => if b.score < specScore text q then mkResult text q else b) := by
  intro run
  induction run with
  | nil => intro b; simp [firstMaxBy]
  | cons p rest ih =>
    intro b
    rw [List.foldl_cons, firstMaxBy]
    by_cases hbp : b.score < specScore text p
    · rw [if_pos hbp, ih (mkResult text p)]
      match hfm : firstMaxBy (specScore text) rest with
      | none =>
        show mkResult text p = if b.score < specScore text p then mkResult text p else b
        rw [if_pos hbp]
      | some q =>
        show (if (mkResult text p).score < specScore text q then mkResult text q
            else mkResult text p) =
          (match (if specScore text p < specScore text q then some q else some p :
              Option StatementParser) with
            | none => b
            | some r => if b.score < specScore text r then mkResult text r else b)
        by_cases hpq : specScore text p < specScore text q
        · rw [if_pos (show (mkResult text p).score < specScore text q from hpq), if_pos hpq]
          show mkResult text q = if b.score < specScore text q then mkResult text q else b
          rw [if_pos (lt_trans hbp hpq)]
        · rw [if_neg (show ¬(mkResult text p).score < specScore text q from hpq), if_neg hpq]
          show mkResult text p = if b.score < specScore text p then mkResult text p else b
          rw [if_pos hbp]
    · rw [if_neg hbp, ih b]
      match hfm : firstMaxBy (specScore text) rest with
      | none =>
        show b = if b.score < specScore text p then mkResult text p else b
        rw [if_neg hbp]
      | some q =>
        show (if b.score < specScore text q then mkResult text q else b) =
          (match (if specScore text p < specScore text q then some q else some p :
              Option StatementParser) with
            | none => b
            | some r => if b.score < specScore text r then mkResult text r else b)
        by_cases hpq : specScore text p < specScore text q
        · rw [if_pos hpq]
        · rw [if_neg hpq]
          show (if b.score < specScore text q then mkResult text q else b) =
            if b.score < specScore text p then mkResult text p else b
          have hqn : ¬ b.score < specScore text q := fun hq =>
            hbp (lt_of_lt_of_le hq (le_of_not_lt hpq))
          rw [if_neg hqn, if_neg hbp]

theorem firstMaxBy_cons_isSome (f : StatementParser → ℚ) (a : StatementParser)
    (l : List StatementParser) : (firstMaxBy f (a :: l)).isSome = true := by
  rw [firstMaxBy]
  match firstMaxBy f l with
  | none => rfl
  | some q => by_cases h : f a < f q <;> simp [h]

theorem firstMaxBy_spec (f : StatementParser → ℚ) :
    ∀ (run : List StatementParser) (q : StatementParser), firstMaxBy f run = some q →
      ∃ l1 l2, run = l1 ++ q :: l2 ∧ (∀ p ∈ l1, f p < f q) ∧ (∀ p ∈ run, f p ≤ f q) := by
  intro run
  induction run with
  | nil => intro q hq; simp [firstMaxBy] at hq
  | cons p rest ih =>
    intro q hq
    rw [firstMaxBy] at hq
    match hfm : firstMaxBy f rest with
    | none =>
      rw [hfm] at hq
      have hq' : some p = some q := hq
      have hpq : p = q := Option.some.inj hq'
      subst hpq
      have hre : rest = [] := by
        cases hrest : rest with
        | nil => rfl
        | cons a l =>
          have hs := firstMaxBy_cons_isSome f a l
          rw [← hrest, hfm] at hs
          simp at hs
      subst hre
      exact ⟨[], [], rfl, by simp, by simp⟩
    | some r =>
      rw [hfm] at hq
      have hq' : (if f p < f r then some r else some p) = some q := hq
      obtain ⟨l1, l2, hsplit, hlt, hle⟩ := ih r hfm
      by_cases hpr : f p < f r
      · rw [if_pos hpr] at hq'
        have hrq : r = q := Option.some.inj hq'
        subst hrq
        refine ⟨p :: l1, l2, by rw [hsplit]; rfl, ?_, ?_⟩
        · intro x hx
          rcases List.mem_cons.mp hx with rfl | hx
          · exact hpr
          · exact hlt x hx
        · intro x hx
          rcases List.mem_cons.mp hx with rfl | hx
          · exact le_of_lt hpr
          · exact hle x hx
      · rw [if_neg hpr] at hq'
        have hpq : p = q := Option.some.inj hq'
        subst hpq
        refine ⟨[], rest, rfl, by simp, ?_⟩
        intro x hx
        rcases List.mem_cons.mp hx with rfl | hx
        · exact le_refl _
        · exact le_trans (hle x hx) (le_of_not_lt hpr)

theorem foldlConfShift : ∀ (l : List ParserTxn) (c : ℚ),
    l.foldl (fun s t => s + t.confidence) c = c + l.foldl (fun s t => s + t.confidence) 0
  | [], c => by simp
  | a :: l, c => by
    simp only [List.foldl_cons]
    rw [foldlConfShift l (c + a.confidence), foldlConfShift l (0 + a.confidence)]
    ring

theorem confSum_nonneg : ∀ (txns : List ParserTxn),
    (∀ t ∈ txns, 0 ≤ t.confidence) → 0 ≤ txns.foldl (fun s t => s + t.confidence) 0
  | [], _ => le_refl 0
  | a :: l, h => by
    simp only [List.foldl_cons]
    rw [foldlConfShift l (0 + a.confidence)]
    have h1 : (0 : ℚ) ≤ a.confidence := h a (by simp)
    have h2 := confSum_nonneg l (fun t ht => h t (by simp [ht]))
    linarith

/-- A strategy consulted by the registry (hint > 0) always scores positively,
as long as its transactions carry non-negative confidences. -/
theorem parserScore_pos (txns : List ParserTxn) (hint : ℚ) (hh : 0 < hint)
    (hc : ∀ t ∈ txns, 0 ≤ t.confidence) : 0 < parserScore txns hint := by
  unfold parserScore
  by_cases h0 : txns.length = 0
  · rw [if_pos h0]
    linarith
  · rw [if_neg h0]
    have hn : (1 : ℚ) ≤ (txns.length : ℚ) := by
      exact_mod_cast Nat.one_le_iff_ne_zero.mpr h0
    have hsum := confSum_nonneg txns hc
    have havg : 0 ≤ (txns.foldl (fun s t => s + t.confidence) 0) / (txns.length : ℚ) :=
      div_nonneg hsum (by linarith)
    have hb : (0.55 : ℚ) ≤ 0.55 + (txns.foldl (fun s t => s + t.confidence) 0) /
        (txns.length : ℚ) * 0.45 := by nlinarith
    nlinarith

/-- C4: the registry runs exactly the strategies whose canParse hint is > 0
(skipped strategies cannot influence the result); a strategy producing a
non-empty list scores count*(0.55 + avgConf*0.45) + hint*25 and an empty one
hint*5 (this is `parserScore`, used definitionally); the kept result is that
of the first-registered strategy with the maximum score — deterministically,
since the whole computation is a pure function of the inputs. -/
theorem registry_runs_and_selects (ps : List StatementParser) (text : Str)
    (hconf : ∀ p ∈ ps, ∀ t ∈ p.parse text, 0 ≤ t.confidence) :
    (runParserPipelineWith ps text =
        runParserPipelineWith (ps.filter (fun p => decide (0 < p.canParse text))) text)
      ∧ (ps.filter (fun p => decide (0 < p.canParse text)) = [] →
          runParserPipelineWith ps text = ⟨"none".toList, 0, []⟩)
      ∧ (∀ q, firstMaxBy (specScore text)
            (ps.filter (fun p => decide (0 < p.canParse text))) = some q →
          runParserPipelineWith ps text = mkResult text q
            ∧ ∃ l1 l2, ps.filter (fun p => decide (0 < p.canParse text)) = l1 ++ q :: l2
                ∧ (∀ p ∈ l1, specScore text p < specScore text q)
                ∧ (∀ p ∈ ps.filter (fun p => decide (0 < p.canParse text)),
                    specScore text p ≤ specScore text q)) := by
  refine ⟨?_, ?_, ?_⟩
  · rw [runParserPipelineWith, runParserPipelineWith, pipelineAux_spec, pipelineAux_spec]
    have hff : (ps.filter (fun p => decide (0 < p.canParse text))).filter
        (fun p => decide (0 < p.canParse text)) =
        ps.filter (fun p => decide (0 < p.canParse text)) := by
      rw [List.filter_eq_self]
      intro a ha
      exact @List.of_mem_filter StatementParser
        (fun p => decide (0 < p.canParse text)) a ps ha
    rw [hff]
  · intro hrun
    rw [runParserPipelineWith, pipelineAux_spec, hrun]
    rfl
  · intro q hq
    constructor
    · rw [runParserPipelineWith, pipelineAux_spec, foldl_select_spec, hq]
      have hmem : q ∈ ps.filter (fun p => decide (0 < p.canParse text)) := by
        obtain ⟨l1, l2, hsplit, _, _⟩ := firstMaxBy_spec (specScore text) _ q hq
        rw [hsplit]
        simp
      have hq0 : (0 : ℚ) < q.canParse text := by
        have := List.of_mem_filter hmem
        simpa using this
      have hpos : (0 : ℚ) < specScore text q :=
        parserScore_pos _ _ hq0 (hconf q (List.mem_of_mem_filter hmem))
      show (if (0 : ℚ) < specScore text q then mkResult text q else _) = mkResult text q
      rw [if_pos hpos]
    · exact firstMaxBy_spec (specScore text) _ q hq

def witTxn : ParserTxn where
  date := "2024-01-01".toList
  description := "w".toList
  amount := 1
  drCr := DrCr.CR
  currency := "INR".toList
  category := "uncategorized".toList
  confidence := 1
  sourceParser := "w1".toList

def witParser1 : StatementParser where
  id := "w1".toList
  canParse := fun _ => 1
  parse := fun _ => [witTxn]

def witParser2 : StatementParser where
  id := "w2".toList
  canParse := fun _ => 1
  parse := fun _ => [witTxn]

/-- Witness for `registry_runs_and_selects`: two tying strategies — the
first-registered one wins. -/
theorem registry_selection_witness :
    runParserPipelineWith [witParser1, witParser2] "x".toList =
      mkResult "x".toList witParser1 := by
  have hconf : ∀ p ∈ [witParser1, witParser2], ∀ t ∈ p.parse "x".toList,
      (0 : ℚ) ≤ t.confidence := by
    intro p hp t ht
    rcases List.mem_cons.mp hp with rfl | hp
    · have : t = witTxn := by simpa [witParser1] using ht
      rw [this]
      norm_num [witTxn]
    · rcases List.mem_cons.mp hp with rfl | hp
      · have : t = witTxn := by simpa [witParser2] using ht
        rw [this]
        norm_num [witTxn]
      · exact absurd hp (List.not_mem_nil p)
  have hfilter : ([witParser1, witParser2].filter
      (fun p => decide (0 < p.canParse "x".toList))) = [witParser1, witParser2] := by
    rw [List.filter_eq_self]
    intro a ha
    rcases List.mem_cons.mp ha with rfl | ha
    · norm_num [witParser1]
    · rcases List.mem_cons.mp ha with rfl | ha
      · norm_num [witParser2]
      · exact absurd ha (List.not_mem_nil a)
  have h2 : firstMaxBy (specScore "x".toList) [witParser2] = some witParser2 := rfl
  have heq : specScore "x".toList witParser1 = specScore "x".toList witParser2 := rfl
  have hfm : firstMaxBy (specScore "x".toList) [witParser1, witParser2] = some witParser1 := by
    rw [firstMaxBy, h2]
    show (if specScore "x".toList witParser1 < specScore "x".toList witParser2
        then some witParser2 else some witParser1) = some witParser1
    rw [if_neg (by rw [heq]; exact lt_irrefl _)]
  have := (registry_runs_and_selects [witParser1, witParser2] "x".toList hconf).2.2 witParser1
    (by rw [hfilter]; exact hfm)
  exact this.1

/-! ## C3: header-less text -/

theorem parseRowsAux_no_header : ∀ (ls : List Str) (rows : List Generic.ParsedRow),
    (∀ l ∈ ls, looksLikeHeader l = false) →
    Generic.parseRowsAux ls false none rows = rows := by
  intro ls
  induction ls with
  | nil => intro rows _; rfl
  | cons line rest ih =>
    intro rows h
    have hl : looksLikeHeader line = false := h line (List.mem_cons_self line rest)
    show (if looksLikeHeader line = true then Generic.parseRowsAux rest true none rows
        else Generic.parseRowsAux rest false none rows) = rows
    rw [hl]
    simp only [Bool.false_eq_true, if_false]
    exact ih rows (fun l hl' => h l (List.mem_cons_of_mem line hl'))

theorem genericParse_no_header (text : Str)
    (h : ∀ l ∈ linesOf text, looksLikeHeader l = false) :
    Generic.parseRows text = [] ∧ Generic.genericStatementParser.parse text = [] := by
  have h1 : Generic.parseRows text = [] := by
    unfold Generic.parseRows
    rw [parseRowsAux_no_header (linesOf text) [] h]
    rfl
  refine ⟨h1, ?_⟩
  show Generic.rowsToTxns (Generic.parseRows text) = []
  rw [h1]
  rfl

/-- C3 (amended): text without a header line yields no transactions from the
GENERIC strategy (all its lines are discarded before the table starts), and
recognition failure is not an exception — `buildInsights` over the empty
transaction list returns all totals zero, count zero and a null
income/expense ratio.  (The full pipeline, however, can still extract
transactions from header-less text through the ICICI strategy, which never
looks for a header — see the counterexample.) -/
theorem headerless_generic_empty_and_empty_insights (text : Str)
    (h : (linesOf text).all (fun l => !looksLikeHeader l) = true) :
    Generic.genericStatementParser.parse text = []
      ∧ (buildInsights []).totalDebits = 0
      ∧ (buildInsights []).totalCredits = 0
      ∧ (buildInsights []).netFlow = 0
      ∧ (buildInsights []).transactionCount = 0
      ∧ (buildInsights []).incomeExpenseRatio = none := by
  have h' : ∀ l ∈ linesOf text, looksLikeHeader l = false := by
    intro l hl
    have := List.all_eq_true.mp h l hl
    simpa using this
  refine ⟨(genericParse_no_header text h').2, by rfl, by rfl, ?_, by rfl, by rfl⟩
  show totalCredits [] - totalDebits [] = 0
  rw [show totalCredits [] = 0 from rfl, show totalDebits [] = 0 from rfl]
  norm_num

/-- Witness for `headerless_generic_empty_and_empty_insights`. -/
theorem headerless_generic_empty_witness :
    Generic.genericStatementParser.parse "just some plain text\nno table here".toList = []
      ∧ (buildInsights []).totalDebits = 0
      ∧ (buildInsights []).totalCredits = 0
      ∧ (buildInsights []).netFlow = 0
      ∧ (buildInsights []).transactionCount = 0
      ∧ (buildInsights []).incomeExpenseRatio = none :=
  headerless_generic_empty_and_empty_insights "just some plain text\nno table here".toList
    (by decide)

theorem parserScore_eval (L : List ParserTxn) (cs : List ℚ) (hint : ℚ)
    (h : L.map (fun t => t.confidence) = cs) :
    parserScore L hint = if cs.length = 0 then hint * 5
      else (cs.length : ℚ) * (0.55 + (cs.foldl (fun a b => a + b) 0) / (cs.length : ℚ) * 0.45)
        + hint * 25 := by
  unfold parserScore
  have hlen : L.length = cs.length := by rw [← h, List.length_map]
  have hsum : L.foldl (fun s t => s + t.confidence) 0 = cs.foldl (fun a b => a + b) 0 := by
    rw [← h, List.foldl_map]
  rw [hlen, hsum]

/-- C3 counterexample: the input text consists of a single date-led
transaction line and contains NO line satisfying the header predicate, yet
the analysis pipeline extracts one transaction: the ICICI strategy (hint
floor 0.05) parses rows without ever requiring a header, and its result
outscores the empty generic result. -/
theorem pipeline_headerless_extracts :
    ((linesOf "01/01/2024 UPI RENT 100.00 1200.00".toList).all
        (fun l => !looksLikeHeader l) = true)
      ∧ (runParserPipeline "01/01/2024 UPI RENT 100.00 1200.00".toList).txns.length = 1
      ∧ (runParserPipeline "01/01/2024 UPI RENT 100.00 1200.00".toList).parserId =
          "icici-v1".toList := by
  refine ⟨by decide, ?_⟩
  have hcanI : Icici.iciciStatementParser.canParse
      "01/01/2024 UPI RENT 100.00 1200.00".toList = 0.05 := by
    simp only [Icici.iciciStatementParser]
    rw [if_neg (by decide), if_neg (by decide)]
  have hcanG : Generic.genericStatementParser.canParse
      "01/01/2024 UPI RENT 100.00 1200.00".toList = 0.2 := by
    simp only [Generic.genericStatementParser]
    rw [if_neg (by decide), if_neg (by decide)]
  have hparseG : Generic.genericStatementParser.parse
      "01/01/2024 UPI RENT 100.00 1200.00".toList = [] :=
    (genericParse_no_header _ (by decide)).2
  have hmapI : (Icici.parseIciciRows "01/01/2024 UPI RENT 100.00 1200.00".toList).map
      (fun t => t.confidence) = [(0.86 : ℚ)] := by rfl
  have hpI : Icici.iciciStatementParser.parse "01/01/2024 UPI RENT 100.00 1200.00".toList =
      Icici.parseIciciRows "01/01/2024 UPI RENT 100.00 1200.00".toList := rfl
  have hfI : specScore "01/01/2024 UPI RENT 100.00 1200.00".toList
      Icici.iciciStatementParser = 2187 / 1000 := by
    unfold specScore
    rw [hpI, hcanI, parserScore_eval _ [(0.86 : ℚ)] _ hmapI]
    norm_num
  have hfG : specScore "01/01/2024 UPI RENT 100.00 1200.00".toList
      Generic.genericStatementParser = 1 := by
    unfold specScore
    rw [hparseG, hcanG]
    show (if (0 : Nat) = 0 then (0.2 : ℚ) * 5 else _) = 1
    rw [if_pos rfl]
    norm_num
  have hrun : PARSERS.filter (fun p => decide (0 < p.canParse
      "01/01/2024 UPI RENT 100.00 1200.00".toList)) = PARSERS := by
    rw [List.filter_eq_self]
    intro a ha
    rcases List.mem_cons.mp ha with rfl | ha
    · simp only [decide_eq_true_eq, hcanI]
      norm_num
    · rcases List.mem_cons.mp ha with rfl | ha
      · simp only [decide_eq_true_eq, hcanG]
        norm_num
      · exact absurd ha (List.not_mem_nil a)
  have hnotlt : ¬ specScore "01/01/2024 UPI RENT 100.00 1200.00".toList
        Icici.iciciStatementParser <
      specScore "01/01/2024 UPI RENT 100.00 1200.00".toList
        Generic.genericStatementParser := by
    rw [hfI, hfG]
    norm_num
  have hfm : firstMaxBy (specScore "01/01/2024 UPI RENT 100.00 1200.00".toList) PARSERS =
      some Icici.iciciStatementParser := by
    show firstMaxBy (specScore "01/01/2024 UPI RENT 100.00 1200.00".toList)
      [Icici.iciciStatementParser, Generic.genericStatementParser] = _
    rw [firstMaxBy]
    have h2 : firstMaxBy (specScore "01/01/2024 UPI RENT 100.00 1200.00".toList)
        [Generic.genericStatementParser] = some Generic.genericStatementParser := rfl
    rw [h2]
    show (if specScore "01/01/2024 UPI RENT 100.00 1200.00".toList Icici.iciciStatementParser <
          specScore "01/01/2024 UPI RENT 100.00 1200.00".toList Generic.genericStatementParser
        then some Generic.genericStatementParser else some Icici.iciciStatementParser) = _
    rw [if_neg hnotlt]
  have hres : runParserPipeline "01/01/2024 UPI RENT 100.00 1200.00".toList =
      mkResult "01/01/2024 UPI RENT 100.00 1200.00".toList Icici.iciciStatementParser := by
    rw [runParserPipeline, runParserPipelineWith, pipelineAux_spec, hrun, foldl_select_spec,
      hfm]
    show (if (0 : ℚ) < specScore "01/01/2024 UPI RENT 100.00 1200.00".toList
        Icici.iciciStatementParser then _ else _) = _
    rw [if_pos (by rw [hfI]; norm_num)]
  rw [hres]
  exact ⟨by rfl, by rfl⟩

/-! ## C1: a throwing strategy aborts the registry run -/

def eBest0 : ParserRunResult := { parserId := "none".toList, score := 0, txns := [] }

def eHealthyRes : ParserRunResult :=
  { parserId := "healthy".toList, score := parserScore [witTxn] 1, txns := [witTxn] }

def boomParser : EStatementParser where
  id := "boom".toList
  canParse := fun _ => Except.ok 1
  parse := fun _ => Except.error "boom".toList

def healthyParser : EStatementParser where
  id := "healthy".toList
  canParse := fun _ => Except.ok 1
  parse := fun _ => Except.ok [witTxn]

/-- C1 (evidence of the code bug): `runParserPipeline` (index.ts:13) contains
no try/catch, so when the first registered strategy's `parse` throws, the
loop is unwound and the whole registry run fails — the remaining healthy
strategy is never consulted and its result is lost, contradicting the spec's
requirement that a failing strategy merely score zero.  The same strategies
without the failure produce a normal result, showing the abort is caused by
the uncaught failure alone. -/
theorem registry_aborts_on_strategy_failure :
    runParserPipelineE [boomParser, healthyParser] "t".toList =
        Except.error "boom".toList
      ∧ runParserPipelineE [healthyParser] "t".toList = Except.ok eHealthyRes := by
  have hpos : (0 : ℚ) < parserScore [witTxn] 1 := by
    apply parserScore_pos
    · norm_num
    · intro t ht
      have : t = witTxn := by simpa using ht
      rw [this]
      norm_num [witTxn]
  constructor
  · show ((if (1 : ℚ) ≤ 0 then runParserPipelineEAux [healthyParser] "t".toList eBest0
        else Except.error "boom".toList) : Except Str ParserRunResult) =
      Except.error "boom".toList
    rw [if_neg (by norm_num)]
  · show ((if (1 : ℚ) ≤ 0 then Except.ok eBest0
        else if (0 : ℚ) < parserScore [witTxn] 1 then Except.ok eHealthyRes
        else Except.ok eBest0) : Except Str ParserRunResult) =
      Except.ok eHealthyRes
    rw [if_neg (by norm_num), if_pos hpos]

/-! ## C6 and C10: `toIsoDate` -/

set_option maxRecDepth 10000 in
theorem natStr_year_shape : ∀ n ∈ Finset.Icc 1900 2069,
    ((natStr n).length = 4 ∧ (natStr n).all isDigitC = true) := by decide

theorem digitVal_le {c : Char} (h : isDigitC c = true) : c.toNat - '0'.toNat ≤ 9 := by
  have h' : '0' ≤ c ∧ c ≤ '9' := by
    unfold isDigitC Char.isDigit at h
    simp only [Bool.and_eq_true, decide_eq_true_eq] at h
    exact h
  obtain ⟨h1, h2⟩ := h'
  have g1 : '0'.toNat ≤ c.toNat := h1
  have g2 : c.toNat ≤ '9'.toNat := h2
  have e1 : '0'.toNat = 48 := rfl
  have e2 : '9'.toNat = 57 := rfl
  omega

theorem digitsToNatAux_lt (a : Nat) : ∀ (s : Str), (∀ c ∈ s, isDigitC c = true) →
    s.foldl (fun a c => 10 * a + (c.toNat - '0'.toNat)) a < (a + 1) * 10 ^ s.length
  | [], _ => by simp
  | c :: rest, h => by
    simp only [List.foldl_cons]
    have hc := digitVal_le (h c (by simp))
    have := digitsToNatAux_lt (10 * a + (c.toNat - '0'.toNat)) rest
      (fun x hx => h x (by simp [hx]))
    have hstep : (10 * a + (c.toNat - '0'.toNat) + 1) * 10 ^ rest.length ≤
        (a + 1) * 10 ^ (rest.length + 1) := by
      have : 10 * a + (c.toNat - '0'.toNat) + 1 ≤ (a + 1) * 10 := by omega
      calc (10 * a + (c.toNat - '0'.toNat) + 1) * 10 ^ rest.length
          ≤ ((a + 1) * 10) * 10 ^ rest.length := Nat.mul_le_mul_right _ this
        _ = (a + 1) * 10 ^ (rest.length + 1) := by ring
    calc (rest.foldl (fun a c => 10 * a + (c.toNat - '0'.toNat))
          (10 * a + (c.toNat - '0'.toNat)))
        < (10 * a + (c.toNat - '0'.toNat) + 1) * 10 ^ rest.length := this
      _ ≤ (a + 1) * 10 ^ (rest.length + 1) := hstep
      _ = (a + 1) * 10 ^ (c :: rest).length := by rw [List.length_cons]

theorem digitsToNat_lt_100 {y : Str} (hlen : y.length = 2)
    (hd : ∀ c ∈ y, isDigitC c = true) : digitsToNat y < 100 := by
  have := digitsToNatAux_lt 0 y hd
  rw [hlen] at this
  unfold digitsToNat
  omega

/-- The rendered year of a valid 2- or 4-digit year group is four digits. -/
theorem fixYear_shape {y : Str} (hd : ∀ c ∈ y, isDigitC c = true)
    (hlen : y.length = 2 ∨ y.length = 4) :
    (fixYear y).length = 4 ∧ ∀ c ∈ fixYear y, isDigitC c = true := by
  rcases hlen with h2 | h4
  · unfold fixYear
    rw [if_pos h2]
    have hv : digitsToNat y < 100 := digitsToNat_lt_100 h2 hd
    have hrange : (if 70 ≤ digitsToNat y then 1900 + digitsToNat y
        else 2000 + digitsToNat y) ∈ Finset.Icc 1900 2069 := by
      by_cases hc : 70 ≤ digitsToNat y
      · rw [if_pos hc]
        simp only [Finset.mem_Icc]
        omega
      · rw [if_neg hc]
        simp only [Finset.mem_Icc]
        omega
    obtain ⟨ha, hb⟩ := natStr_year_shape _ hrange
    exact ⟨ha, fun c hc => List.all_eq_true.mp hb c hc⟩
  · unfold fixYear
    rw [if_neg (by omega)]
    exact ⟨h4, hd⟩

theorem pad2_shape {s : Str} (hd : ∀ c ∈ s, isDigitC c = true)
    (hlen : 1 ≤ s.length) (hlen2 : s.length ≤ 2) :
    (pad2 s).length = 2 ∧ ∀ c ∈ pad2 s, isDigitC c = true := by
  unfold pad2
  constructor
  · rw [List.length_append, List.length_replicate]
    omega
  · intro c hc
    rcases List.mem_append.mp hc with hc | hc
    · have := List.eq_of_mem_replicate hc
      rw [this]
      decide
    · exact hd c hc

/-- `monthKey` accepts exactly strings built as 4 digits, dash, 2 digits,
dash, 2 digits. -/
theorem monthKey_build {y4 m2 d2 : Str}
    (hy : y4.length = 4) (hyd : ∀ c ∈ y4, isDigitC c = true)
    (hm : m2.length = 2) (hmd : ∀ c ∈ m2, isDigitC c = true)
    (hd2 : d2.length = 2) (hdd : ∀ c ∈ d2, isDigitC c = true) :
    monthKey (y4 ++ '-' :: (m2 ++ '-' :: d2)) = some (y4 ++ '-' :: m2) := by
  have hdash : isDigitC '-' = false := by decide
  obtain ⟨t1, r1⟩ := @takeWhileAppendAll Char isDigitC '-' (m2 ++ '-' :: d2) hdash y4 hyd
  obtain ⟨t2, r2⟩ := @takeWhileAppendAll Char isDigitC '-' d2 hdash m2 hmd
  unfold monthKey
  simp [t1, r1, t2, r2, hy, hm, hd2, List.all_eq_true.mpr hdd]

theorem slashMatch_inv {s d m y : Str} (h : slashMatch s = some (d, m, y)) :
    (∀ c ∈ d, isDigitC c = true) ∧ 1 ≤ d.length ∧ d.length ≤ 2
      ∧ (∀ c ∈ m, isDigitC c = true) ∧ 1 ≤ m.length ∧ m.length ≤ 2
      ∧ (∀ c ∈ y, isDigitC c = true) ∧ 2 ≤ y.length ∧ y.length ≤ 4 := by
  unfold slashMatch at h
  simp only [] at h
  split at h
  · exact Option.noConfusion h
  · next hd =>
    split at h
    · split at h
      · split at h
        · exact Option.noConfusion h
        · next hm =>
          split at h
          · split at h
            · next hcond =>
              rw [Option.some.injEq, Prod.mk.injEq, Prod.mk.injEq] at h
              obtain ⟨hd1, hm1, hy1⟩ := h
              subst hd1
              subst hm1
              subst hy1
              simp only [Bool.and_eq_true, decide_eq_true_eq] at hcond
              obtain ⟨⟨⟨_, hyall⟩, hy2⟩, hy4⟩ := hcond
              simp only [Bool.or_eq_true, decide_eq_true_eq, not_or] at hd hm
              refine ⟨fun c hc => List.mem_takeWhile_imp hc, by omega, by omega,
                fun c hc => List.mem_takeWhile_imp hc, by omega, by omega,
                ?_, hy2, hy4⟩
              intro c hc
              exact List.all_eq_true.mp hyall c hc
            · exact Option.noConfusion h
          · exact Option.noConfusion h
      · exact Option.noConfusion h
    · exact Option.noConfusion h

theorem monthNameMatch_inv {s d a y : Str} (h : monthNameMatch s = some (d, a, y)) :
    (∀ c ∈ d, isDigitC c = true) ∧ 1 ≤ d.length ∧ d.length ≤ 2
      ∧ (∀ c ∈ y, isDigitC c = true) ∧ 2 ≤ y.length ∧ y.length ≤ 4 := by
  unfold monthNameMatch at h
  simp only [] at h
  split at h
  · exact Option.noConfusion h
  · next hd =>
    split at h
    · split at h
      · split at h
        · exact Option.noConfusion h
        · split at h
          · split at h
            · next hcond =>
              rw [Option.some.injEq, Prod.mk.injEq, Prod.mk.injEq] at h
              obtain ⟨hd1, hm1, hy1⟩ := h
              subst hd1
              subst hm1
              subst hy1
              simp only [Bool.and_eq_true, decide_eq_true_eq] at hcond
              obtain ⟨⟨⟨_, hyall⟩, hy2⟩, hy4⟩ := hcond
              simp only [Bool.or_eq_true, decide_eq_true_eq, not_or] at hd
              refine ⟨fun c hc => List.mem_takeWhile_imp hc, by omega, by omega, ?_, hy2, hy4⟩
              intro c hc
              exact List.all_eq_true.mp hyall c hc
            · exact Option.noConfusion h
          · exact Option.noConfusion h
      · exact Option.noConfusion h
    · exact Option.noConfusion h


theorem monthMap_shape {a mm : Str} (h : monthMap a = some mm) :
    mm.length = 2 ∧ ∀ c ∈ mm, isDigitC c = true := by
  by_cases h1 : a = "jan".toList
  · subst h1
    have h0 := Option.some.inj ((show monthMap "jan".toList = some "01".toList from rfl).symm.trans h)
    subst h0
    exact ⟨rfl, by decide⟩
  · by_cases h2 : a = "feb".toList
    · subst h2
      have h0 := Option.some.inj ((show monthMap "feb".toList = some "02".toList from rfl).symm.trans h)
      subst h0
      exact ⟨rfl, by decide⟩
    · by_cases h3 : a = "mar".toList
      · subst h3
        have h0 := Option.some.inj ((show monthMap "mar".toList = some "03".toList from rfl).symm.trans h)
        subst h0
        exact ⟨rfl, by decide⟩
      · by_cases h4 : a = "apr".toList
        · subst h4
          have h0 := Option.some.inj ((show monthMap "apr".toList = some "04".toList from rfl).symm.trans h)
          subst h0
          exact ⟨rfl, by decide⟩
        · by_cases h5 : a = "may".toList
          · subst h5
            have h0 := Option.some.inj ((show monthMap "may".toList = some "05".toList from rfl).symm.trans h)
            subst h0
            exact ⟨rfl, by decide⟩
          · by_cases h6 : a = "jun".toList
            · subst h6
              have h0 := Option.some.inj ((show monthMap "jun".toList = some "06".toList from rfl).symm.trans h)
              subst h0
              exact ⟨rfl, by decide⟩
            · by_cases h7 : a = "jul".toList
              · subst h7
                have h0 := Option.some.inj ((show monthMap "jul".toList = some "07".toList from rfl).symm.trans h)
                subst h0
                exact ⟨rfl, by decide⟩
              · by_cases h8 : a = "aug".toList
                · subst h8
                  have h0 := Option.some.inj ((show monthMap "aug".toList = some "08".toList from rfl).symm.trans h)
                  subst h0
                  exact ⟨rfl, by decide⟩
                · by_cases h9 : a = "sep".toList
                  · subst h9
                    have h0 := Option.some.inj ((show monthMap "sep".toList = some "09".toList from rfl).symm.trans h)
                    subst h0
                    exact ⟨rfl, by decide⟩
                  · by_cases h10 : a = "oct".toList
                    · subst h10
                      have h0 := Option.some.inj ((show monthMap "oct".toList = some "10".toList from rfl).symm.trans h)
                      subst h0
                      exact ⟨rfl, by decide⟩
                    · by_cases h11 : a = "nov".toList
                      · subst h11
                        have h0 := Option.some.inj ((show monthMap "nov".toList = some "11".toList from rfl).symm.trans h)
                        subst h0
                        exact ⟨rfl, by decide⟩
                      · by_cases h12 : a = "dec".toList
                        · subst h12
                          have h0 := Option.some.inj ((show monthMap "dec".toList = some "12".toList from rfl).symm.trans h)
                          subst h0
                          exact ⟨rfl, by decide⟩
                        · rw [monthMap, if_neg h1, if_neg h2, if_neg h3, if_neg h4, if_neg h5, if_neg h6, if_neg h7, if_neg h8, if_neg h9, if_neg h10, if_neg h11, if_neg h12] at h
                          exact Option.noConfusion h

theorem alpha_not_digit {c : Char} (h : isAlphaC c = true) : isDigitC c = false := by
  unfold isAlphaC Char.isAlpha Char.isUpper Char.isLower at h
  unfold isDigitC Char.isDigit
  simp only [Bool.or_eq_true, Bool.and_eq_true, decide_eq_true_eq] at h
  simp only [Bool.and_eq_false_iff, decide_eq_false_iff_not]
  refine Or.inr (fun hc => ?_)
  have g9 : c.toNat ≤ '9'.toNat := hc
  have e9 : '9'.toNat = 57 := rfl
  rcases h with ⟨h1, _⟩ | ⟨h1, _⟩
  · have g1 : 'A'.toNat ≤ c.toNat := h1
    have e1 : 'A'.toNat = 65 := rfl
    omega
  · have g1 : 'a'.toNat ≤ c.toNat := h1
    have e1 : 'a'.toNat = 97 := rfl
    omega

theorem slashMatch_structure {s d m y : Str} (h : slashMatch s = some (d, m, y)) :
    ∃ sep r2, s.dropWhile isDigitC = sep :: r2 ∧ isDotSep sep = true
      ∧ 1 ≤ (r2.takeWhile isDigitC).length := by
  unfold slashMatch at h
  simp only [] at h
  split at h
  · exact Option.noConfusion h
  · split at h
    · next tl heq =>
      split at h
      · next hds =>
        split at h
        · exact Option.noConfusion h
        · next hm =>
          simp only [Bool.or_eq_true, decide_eq_true_eq, not_or] at hm
          exact ⟨_, tl, heq, hds, by omega⟩
      · exact Option.noConfusion h
    · exact Option.noConfusion h

theorem monthNameMatch_structure {s d a y : Str} (h : monthNameMatch s = some (d, a, y)) :
    ∃ sep r2, s.dropWhile isDigitC = sep :: r2 ∧ isSpDash sep = true
      ∧ (r2.takeWhile isAlphaC).length = 3 := by
  unfold monthNameMatch at h
  simp only [] at h
  split at h
  · exact Option.noConfusion h
  · split at h
    · next tl heq =>
      split at h
      · next hsp =>
        split at h
        · exact Option.noConfusion h
        · next ha =>
          exact ⟨_, tl, heq, hsp, not_not.mp ha⟩
      · exact Option.noConfusion h
    · exact Option.noConfusion h

/-- A `DD Mon YY` token is never also a numeric slash/dot/dash token: after
the shared leading digit run, the numeric matcher requires a digit where the
month letter sits. -/
theorem monthName_slash_none {s d a y : Str} (h : monthNameMatch s = some (d, a, y)) :
    slashMatch s = none := by
  cases hsl : slashMatch s with
  | none => rfl
  | some v =>
    obtain ⟨d', m', y'⟩ := v
    obtain ⟨sep, r2, hsd, _, hm1⟩ := slashMatch_structure hsl
    obtain ⟨sep2, r2b, hsd2, _, ha3⟩ := monthNameMatch_structure h
    rw [hsd] at hsd2
    injection hsd2 with hsep hr
    subst hr
    cases r2 with
    | nil => simp at hm1
    | cons c t =>
      by_cases hdc : isDigitC c = true
      · by_cases hal : isAlphaC c = true
        · exact absurd hdc (by simp [alpha_not_digit hal])
        · rw [List.takeWhile_cons, if_neg (by simp [hal])] at ha3
          exact absurd ha3 (by simp)
      · rw [List.takeWhile_cons, if_neg (by simp [hdc])] at hm1
        exact absurd hm1 (by simp)

/-- C6 (counterexample to the unrestricted universal): `"01/01/123"` is a
valid date token — the numeric alternative of `DATE_TOKEN` allows a 2-, 3- or
4-digit year — yet `toIsoDate` leaves the 3-digit year alone and returns
`"123-01-01"`, which is not of the canonical `YYYY-MM-DD` form (its month key
is `null`). -/
theorem toIsoDate_three_digit_year_counterexample :
    (slashMatch ("01/01/123".toList)).isSome = true
      ∧ toIsoDate ("01/01/123".toList) = "123-01-01".toList
      ∧ monthKey (toIsoDate ("01/01/123".toList)) = none := by
  refine ⟨by decide, by decide, by decide⟩

/-- C6: `toIsoDate` is canonicalising on every date token whose year group has
two or four digits: the result always matches `^(\d{4})-(\d{2})-\d{2}$` (its
month key is defined), for both the numeric and the month-name alternative;
the 2-digit year pivot is exactly `Y >= 70 ? 1900+Y : 2000+Y`; and in
particular `"01/01/70"` maps to `"1970-01-01"` and `"01/01/69"` to
`"2069-01-01"`.  (For 3-digit year groups, which `DATE_TOKEN` also admits, the
canonical form fails — see the counterexample.) -/
theorem toIsoDate_canonical_and_pivot :
    (∀ y2 : Str, y2.length = 2 →
        fixYear y2 = natStr (if 70 ≤ digitsToNat y2 then 1900 + digitsToNat y2
          else 2000 + digitsToNat y2))
    ∧ (∀ s d m y : Str, slashMatch s = some (d, m, y) →
        y.length = 2 ∨ y.length = 4 → (monthKey (toIsoDate s)).isSome = true)
    ∧ (∀ s d a y mm : Str, monthNameMatch s = some (d, a, y) →
        monthMap (lowerStr a) = some mm →
        y.length = 2 ∨ y.length = 4 → (monthKey (toIsoDate s)).isSome = true)
    ∧ toIsoDate ("01/01/70".toList) = "1970-01-01".toList
    ∧ toIsoDate ("01/01/69".toList) = "2069-01-01".toList := by
  refine ⟨?_, ?_, ?_, by decide, by decide⟩
  · intro y2 h2
    unfold fixYear
    rw [if_pos h2]
  · intro s d m y hsl hy
    obtain ⟨hdD, hd1, hd2, hmD, hm1, hm2, hyD, _, _⟩ := slashMatch_inv hsl
    obtain ⟨hfl, hfd⟩ := fixYear_shape hyD hy
    obtain ⟨hml, hmd⟩ := pad2_shape hmD hm1 hm2
    obtain ⟨hdl, hdd⟩ := pad2_shape hdD hd1 hd2
    have htiso : toIsoDate s = fixYear y ++ '-' :: (pad2 m ++ '-' :: pad2 d) := by
      unfold toIsoDate
      rw [hsl]
      simp
    rw [htiso, monthKey_build hfl hfd hml hmd hdl hdd]
    rfl
  · intro s d a y mm hmn hmap hy
    obtain ⟨hdD, hd1, hd2, hyD, _, _⟩ := monthNameMatch_inv hmn
    obtain ⟨hfl, hfd⟩ := fixYear_shape hyD hy
    obtain ⟨hml, hmd⟩ := monthMap_shape hmap
    obtain ⟨hdl, hdd⟩ := pad2_shape hdD hd1 hd2
    have e2 : toIsoDate s = fixYear y ++ '-' :: (mm ++ '-' :: pad2 d) := by
      unfold toIsoDate
      rw [monthName_slash_none hmn, hmn]
      simp [hmap]
    rw [e2, monthKey_build hfl hfd hml hmd hdl hdd]
    rfl

/-- Witness for `toIsoDate_canonical_and_pivot` at the concrete tokens
`"31/12/99"`, `"05 Jan 2024"` and the 2-digit year group `"99"`. -/
theorem toIsoDate_canonical_witness :
    fixYear ("99".toList) = natStr (if 70 ≤ digitsToNat ("99".toList)
        then 1900 + digitsToNat ("99".toList) else 2000 + digitsToNat ("99".toList))
      ∧ (monthKey (toIsoDate ("31/12/99".toList))).isSome = true
      ∧ (monthKey (toIsoDate ("05 Jan 2024".toList))).isSome = true :=
  ⟨toIsoDate_canonical_and_pivot.1 ("99".toList) (by decide),
   toIsoDate_canonical_and_pivot.2.1 ("31/12/99".toList) ("31".toList) ("12".toList)
     ("99".toList) (by decide) (Or.inl (by decide)),
   toIsoDate_canonical_and_pivot.2.2.1 ("05 Jan 2024".toList) ("05".toList)
     ("Jan".toList) ("2024".toList) ("01".toList) (by decide) (by decide)
     (Or.inr (by decide))⟩

theorem foldl_skip {α β : Type} (f : β → α → β) (p : α → Bool)
    (hf : ∀ acc a, p a = false → f acc a = acc) :
    ∀ (l : List α) (acc : β), l.foldl f acc = (l.filter p).foldl f acc := by
  intro l
  induction l with
  | nil => intro _; rfl
  | cons a t ih =>
    intro acc
    cases hp : p a with
    | true =>
      rw [List.foldl_cons]
      have hft : (a :: t).filter p = a :: t.filter p := by simp [List.filter_cons, hp]
      rw [hft, List.foldl_cons]
      exact ih (f acc a)
    | false =>
      rw [List.foldl_cons, hf acc a hp]
      have hft : (a :: t).filter p = t.filter p := by simp [List.filter_cons, hp]
      rw [hft]
      exact ih acc

/-- C10: `toIsoDate` is a total function that falls through to its argument:
when the input matches neither the numeric pattern nor the month-name pattern
with a recognised `jan`–`dec` abbreviation, the input string is returned
unchanged; and the month-over-month breakdown silently omits every transaction
whose date yields no month key. -/
theorem toIsoDate_passthrough_month_omitted :
    (∀ s : Str, slashMatch s = none →
        (∀ d a y : Str, monthNameMatch s = some (d, a, y) →
          monthMap (lowerStr a) = none) →
        toIsoDate s = s)
    ∧ (∀ txns : List Txn, monthOverMonthOf txns
        = monthOverMonthOf (txns.filter (fun t => (monthKey t.date).isSome))) := by
  constructor
  · intro s h1 h2
    unfold toIsoDate
    rw [h1]
    cases hmn : monthNameMatch s with
    | none => simp
    | some v =>
      obtain ⟨d, a, y⟩ := v
      simp [h2 d a y hmn]
  · intro txns
    unfold monthOverMonthOf monthMapOf
    have hf : ∀ (acc : List (Str × ℚ × ℚ)) (t : Txn),
        (fun t => (monthKey t.date).isSome) t = false →
        (fun acc t =>
          match monthKey t.date with
          | none => acc
          | some mk =>
            let ty := match t.drCr with
              | some d => d
              | none => if 0 ≤ t.amount then DrCr.CR else DrCr.DR
            upsertMonth mk (ty = DrCr.CR) |t.amount| acc) acc t = acc := by
      intro acc t hp
      simp only [] at hp ⊢
      cases hmk : monthKey t.date with
      | none => simp [hmk]
      | some mk =>
        rw [hmk] at hp
        exact absurd hp (by simp)
    rw [foldl_skip _ (fun t => (monthKey t.date).isSome) hf txns]

/-- Witness for `toIsoDate_passthrough_month_omitted`: the token
`"05 Foo 2024"` has an unrecognised month abbreviation and passes through
unchanged, and the empty transaction list instantiates the omission part. -/
theorem toIsoDate_passthrough_witness :
    toIsoDate ("05 Foo 2024".toList) = "05 Foo 2024".toList
      ∧ monthOverMonthOf ([] : List Txn)
        = monthOverMonthOf (List.filter (fun t => (monthKey t.date).isSome) []) := by
  refine ⟨toIsoDate_passthrough_month_omitted.1 _ (by decide) ?_,
    toIsoDate_passthrough_month_omitted.2 []⟩
  intro d a y h
  have he : monthNameMatch ("05 Foo 2024".toList)
      = some ("05".toList, "Foo".toList, "2024".toList) := by decide
  rw [he] at h
  have ha : "Foo".toList = a := congrArg (fun p => p.2.1) (Option.some.inj h)
  rw [← ha]
  decide

/-! ## C7: merchant grouping and subscriptions -/

theorem keyEntry {k : Str} {acc : List (Str × List Txn)} (h : k ∈ acc.map Prod.fst) :
    ∃ l, (k, l) ∈ acc := by
  obtain ⟨e, he, hk⟩ := List.mem_map.mp h
  exact ⟨e.2, by rw [← hk, Prod.mk.eta]; exact he⟩

theorem upsertGroup_not_mem {k : Str} {t : Txn} (acc : List (Str × List Txn))
    (h : k ∉ acc.map Prod.fst) : upsertGroup k t acc = acc ++ [(k, [t])] := by
  induction acc with
  | nil => rfl
  | cons e rest ih =>
    obtain ⟨k1, l1⟩ := e
    simp only [List.map_cons, List.mem_cons, not_or] at h
    simp only [upsertGroup, if_neg (fun hc : k1 = k => h.1 hc.symm), List.cons_append,
      ih h.2]

theorem upsertGroup_keys_mem {k : Str} {t : Txn} (acc : List (Str × List Txn))
    (h : k ∈ acc.map Prod.fst) :
    (upsertGroup k t acc).map Prod.fst = acc.map Prod.fst := by
  induction acc with
  | nil => simp at h
  | cons e rest ih =>
    obtain ⟨k1, l1⟩ := e
    by_cases hc : k1 = k
    · simp only [upsertGroup, if_pos hc, List.map_cons]
    · have h' : k ∈ rest.map Prod.fst := by
        simp only [List.map_cons, List.mem_cons] at h
        rcases h with h | h
        · exact absurd h.symm hc
        · exact h
      simp only [upsertGroup, if_neg hc, List.map_cons, ih h']

theorem upsertGroup_mem_char {k : Str} {t : Txn} {l0 : List Txn}
    (acc : List (Str × List Txn)) (hnd : (acc.map Prod.fst).Nodup)
    (h0 : (k, l0) ∈ acc) :
    ∀ k' l', ((k', l') ∈ upsertGroup k t acc ↔
      (k' = k ∧ l' = l0 ++ [t]) ∨ (k' ≠ k ∧ (k', l') ∈ acc)) := by
  induction acc with
  | nil => simp at h0
  | cons e rest ih =>
    obtain ⟨k1, l1⟩ := e
    simp only [List.map_cons, List.nodup_cons] at hnd
    by_cases hc : k1 = k
    · subst hc
      have hl0 : l0 = l1 := by
        rcases List.mem_cons.mp h0 with h | h
        · exact ((Prod.mk.injEq _ _ _ _).mp h.symm).2.symm
        · exact absurd (List.mem_map.mpr ⟨(k1, l0), h, rfl⟩) hnd.1
      subst hl0
      intro k' l'
      simp only [upsertGroup, if_pos rfl]
      constructor
      · intro hm
        rcases List.mem_cons.mp hm with h | h
        · obtain ⟨hk, hl⟩ := (Prod.mk.injEq _ _ _ _).mp h
          exact Or.inl ⟨hk, hl⟩
        · refine Or.inr ⟨?_, List.mem_cons_of_mem _ h⟩
          intro he
          subst he
          exact hnd.1 (List.mem_map.mpr ⟨(k', l'), h, rfl⟩)
      · intro hm
        rcases hm with ⟨hk, hl⟩ | ⟨hne, hmem⟩
        · subst hk
          subst hl
          exact List.mem_cons_self _ _
        · rcases List.mem_cons.mp hmem with h | h
          · exact absurd ((Prod.mk.injEq _ _ _ _).mp h).1 hne
          · exact List.mem_cons_of_mem _ h
    · have h0' : (k, l0) ∈ rest := by
        rcases List.mem_cons.mp h0 with h | h
        · exact absurd ((Prod.mk.injEq _ _ _ _).mp h).1.symm hc
        · exact h
      intro k' l'
      simp only [upsertGroup, if_neg hc]
      constructor
      · intro hm
        rcases List.mem_cons.mp hm with h | h
        · obtain ⟨hk, hl⟩ := (Prod.mk.injEq _ _ _ _).mp h
          subst hk
          subst hl
          exact Or.inr ⟨fun he => hc he, List.mem_cons_self _ _⟩
        · rcases (ih hnd.2 h0' k' l').mp h with h' | h'
          · exact Or.inl h'
          · exact Or.inr ⟨h'.1, List.mem_cons_of_mem _ h'.2⟩
      · intro hm
        rcases hm with ⟨hk, hl⟩ | ⟨hne, hmem⟩
        · exact List.mem_cons_of_mem _ ((ih hnd.2 h0' k' l').mpr (Or.inl ⟨hk, hl⟩))
        · rcases List.mem_cons.mp hmem with h | h
          · obtain ⟨hk, hl⟩ := (Prod.mk.injEq _ _ _ _).mp h
            subst hk
            subst hl
            exact List.mem_cons_self _ _
          · exact List.mem_cons_of_mem _ ((ih hnd.2 h0' k' l').mpr (Or.inr ⟨hne, h⟩))

/-- Invariant of the debit-grouping loop after processing `done`: keys are
distinct valid merchant normal forms, every group holds exactly the processed
debits normalising to its key, and every processed debit with a valid normal
form has a group. -/
def GroupInv (done : List Txn) (acc : List (Str × List Txn)) : Prop :=
  (acc.map Prod.fst).Nodup
  ∧ (∀ k l, (k, l) ∈ acc →
      ((k.isEmpty || decide (k.length < 3)) = false
        ∧ l = done.filter (fun t => decide (normalizeMerchant t.description = k))))
  ∧ (∀ t ∈ done,
      ((normalizeMerchant t.description).isEmpty
        || decide ((normalizeMerchant t.description).length < 3)) = false →
      normalizeMerchant t.description ∈ acc.map Prod.fst)

theorem groupStep_inv {done : List Txn} {acc : List (Str × List Txn)} {t : Txn}
    (h : GroupInv done acc) :
    GroupInv (done ++ [t])
      (if (normalizeMerchant t.description).isEmpty
          || (normalizeMerchant t.description).length < 3 then acc
        else upsertGroup (normalizeMerchant t.description) t acc) := by
  obtain ⟨hnd, hchar, hcomp⟩ := h
  by_cases hv : ((normalizeMerchant t.description).isEmpty
      || decide ((normalizeMerchant t.description).length < 3)) = true
  · rw [if_pos hv]
    refine ⟨hnd, ?_, ?_⟩
    · intro k l hm
      obtain ⟨hk, hl⟩ := hchar k l hm
      refine ⟨hk, ?_⟩
      rw [List.filter_append]
      have hne : normalizeMerchant t.description ≠ k := by
        intro he
        rw [he] at hv
        rw [hv] at hk
        exact Bool.true_eq_false.mp hk
      have : List.filter (fun t => decide (normalizeMerchant t.description = k)) [t]
          = [] := by
        simp [hne]
      rw [this, List.append_nil]
      exact hl
    · intro t' ht' hvt
      rcases List.mem_append.mp ht' with h | h
      · exact hcomp t' h hvt
      · rw [List.mem_singleton.mp h] at hvt
        rw [hvt] at hv
        exact absurd hv (by simp)
  · have hv' : ((normalizeMerchant t.description).isEmpty
        || decide ((normalizeMerchant t.description).length < 3)) = false := by
      simpa using hv
    rw [if_neg hv]
    by_cases hmem : normalizeMerchant t.description ∈ acc.map Prod.fst
    · obtain ⟨l0, hl0⟩ := keyEntry hmem
      obtain ⟨_, hl0char⟩ := hchar _ l0 hl0
      have hchar' := @upsertGroup_mem_char _ t _ acc hnd hl0
      refine ⟨?_, ?_, ?_⟩
      · rw [upsertGroup_keys_mem acc hmem]
        exact hnd
      · intro k l hm
        rcases (hchar' k l).mp hm with ⟨hk, hl⟩ | ⟨hne, hmem'⟩
        · subst hk
          refine ⟨hv', ?_⟩
          rw [List.filter_append, hl, hl0char]
          simp
        · obtain ⟨hk, hl⟩ := hchar k l hmem'
          refine ⟨hk, ?_⟩
          rw [List.filter_append, hl]
          have hne2 : normalizeMerchant t.description ≠ k := fun he => hne he.symm
          have : List.filter (fun t => decide (normalizeMerchant t.description = k)) [t]
              = [] := by
            simp [hne2]
          rw [this, List.append_nil]
      · intro t' ht' hvt
        rw [upsertGroup_keys_mem acc hmem]
        rcases List.mem_append.mp ht' with h | h
        · exact hcomp t' h hvt
        · rw [List.mem_singleton.mp h]
          exact hmem
    · rw [upsertGroup_not_mem acc hmem]
      refine ⟨?_, ?_, ?_⟩
      · rw [List.map_append]
        simp only [List.map_cons, List.map_nil]
        rw [List.nodup_append]
        exact ⟨hnd, List.nodup_singleton _,
          fun a ha hb => hmem (by rwa [List.mem_singleton.mp hb] at ha)⟩
      · intro k l hm
        rcases List.mem_append.mp hm with h | h
        · obtain ⟨hk, hl⟩ := hchar k l h
          refine ⟨hk, ?_⟩
          rw [List.filter_append, hl]
          have hne : normalizeMerchant t.description ≠ k := by
            intro he
            exact hmem (he ▸ List.mem_map.mpr ⟨(k, l), h, he ▸ rfl⟩)
          have : List.filter (fun t => decide (normalizeMerchant t.description = k)) [t]
              = [] := by
            simp [hne]
          rw [this, List.append_nil]
        · obtain ⟨hk, hl⟩ := (Prod.mk.injEq _ _ _ _).mp (List.mem_singleton.mp h)
          subst hk
          subst hl
          refine ⟨hv', ?_⟩
          rw [List.filter_append]
          have h1 : List.filter
              (fun t' => decide (normalizeMerchant t'.description
                = normalizeMerchant t.description)) done = [] := by
            rw [List.filter_eq_nil_iff]
            intro t' ht'
            simp only [decide_eq_true_eq]
            intro he
            exact hmem (he ▸ hcomp t' ht' (he ▸ hv'))
          have h2 : List.filter
              (fun t' => decide (normalizeMerchant t'.description
                = normalizeMerchant t.description)) [t] = [t] := by
            simp
          rw [h1, h2, List.nil_append]
      · intro t' ht' hvt
        rw [List.map_append]
        rcases List.mem_append.mp ht' with h | h
        · exact List.mem_append_left _ (hcomp t' h hvt)
        · rw [List.mem_singleton.mp h]
          simp

theorem groupFold_inv :
    ∀ (ds done : List Txn) (acc : List (Str × List Txn)), GroupInv done acc →
      GroupInv (done ++ ds)
        (ds.foldl
          (fun acc t =>
            let merchant := normalizeMerchant t.description
            if merchant.isEmpty || merchant.length < 3 then acc
            else upsertGroup merchant t acc)
          acc) := by
  intro ds
  induction ds with
  | nil =>
    intro done acc h
    simpa using h
  | cons a tl ih =>
    intro done acc h
    have hstep := @groupStep_inv done acc a h
    have := ih (done ++ [a]) _ hstep
    simpa [List.append_assoc] using this

/-- Every group of `merchantGroups` is keyed by a valid normal form (non-empty,
at least 3 characters) and holds exactly the debits normalising to that key. -/
theorem merchantGroups_spec (txns : List Txn) :
    ∀ k l, (k, l) ∈ merchantGroups txns →
      ((k.isEmpty || decide (k.length < 3)) = false
        ∧ l = (debitsOf txns).filter
            (fun t => decide (normalizeMerchant t.description = k))) := by
  have hinv : GroupInv ([] ++ debitsOf txns) (merchantGroups txns) :=
    groupFold_inv (debitsOf txns) [] []
      ⟨List.nodup_nil, fun k l hm => absurd hm (List.not_mem_nil _), fun t ht => absurd ht (List.not_mem_nil _)⟩
  rw [List.nil_append] at hinv
  exact fun k l hm => hinv.2.1 k l hm

theorem insertByDesc_mem {α : Type} (key : α → ℚ) (a x : α) :
    ∀ l : List α, (x ∈ insertByDesc key a l ↔ x = a ∨ x ∈ l) := by
  intro l
  induction l with
  | nil => simp [insertByDesc]
  | cons b tl ih =>
    by_cases hc : key b ≤ key a
    · simp [insertByDesc, if_pos hc]
    · simp only [insertByDesc, if_neg hc, List.mem_cons, ih]
      tauto

theorem insertByDesc_pairwise {α : Type} (key : α → ℚ) (a : α) :
    ∀ l : List α, l.Pairwise (fun x y => key y ≤ key x) →
      (insertByDesc key a l).Pairwise (fun x y => key y ≤ key x) := by
  intro l
  induction l with
  | nil =>
    intro _
    simp [insertByDesc]
  | cons b tl ih =>
    intro h
    obtain ⟨hb, htl⟩ := List.pairwise_cons.mp h
    by_cases hc : key b ≤ key a
    · rw [insertByDesc, if_pos hc]
      refine List.pairwise_cons.mpr ⟨?_, h⟩
      intro x hx
      rcases List.mem_cons.mp hx with hx | hx
      · rw [hx]
        exact hc
      · exact le_trans (hb x hx) hc
    · rw [insertByDesc, if_neg hc]
      refine List.pairwise_cons.mpr ⟨?_, ih htl⟩
      intro x hx
      rcases (insertByDesc_mem key a x tl).mp hx with hx | hx
      · rw [hx]
        exact le_of_lt (lt_of_not_le hc)
      · exact hb x hx

theorem sortByDesc_pairwise {α : Type} (key : α → ℚ) :
    ∀ l : List α, (sortByDesc key l).Pairwise (fun x y => key y ≤ key x) := by
  intro l
  induction l with
  | nil => simp [sortByDesc]
  | cons a tl ih => exact insertByDesc_pairwise key a _ ih

theorem sortByDesc_mem {α : Type} (key : α → ℚ) (x : α) :
    ∀ l : List α, (x ∈ sortByDesc key l ↔ x ∈ l) := by
  intro l
  induction l with
  | nil => simp [sortByDesc]
  | cons a tl ih =>
    rw [sortByDesc, insertByDesc_mem key a x, ih, List.mem_cons]

def netflixTxn (d : Str) : Txn :=
  { id := [], date := d, description := "NETFLIX".toList, amount := -199,
    drCr := some DrCr.DR, sourceParser := none, currency := "INR".toList,
    category := "uncategorized".toList, confidence := 1 }

def netflixJan : Txn := netflixTxn ("2024-01-05".toList)

def netflixFeb : Txn := netflixTxn ("2024-02-05".toList)

def netflixMar : Txn := netflixTxn ("2024-03-05".toList)

def nfList : List Txn := [netflixJan, netflixFeb, netflixMar]

/-- C7: subscription detection groups debit transactions by normalised
merchant (normal forms shorter than 3 characters are excluded), every emitted
entry stems from a group with at least 2 transactions spanning at least 2
distinct months and carries `(merchant, count, avgAmount = total/count,
totalAmount)`, the output is sorted by `totalAmount` descending and capped at
10; and three debits to `"NETFLIX"` of 199 across three distinct months yield
exactly `{merchant: "NETFLIX", count: 3, avgAmount: 199, totalAmount: 597}`. -/
theorem subscriptions_grouping_and_netflix :
    (∀ txns : List Txn, (subscriptionsOf txns).length ≤ 10)
    ∧ (∀ txns : List Txn, (subscriptionsOf txns).Pairwise
        (fun e1 e2 => e2.totalAmount ≤ e1.totalAmount))
    ∧ (∀ txns : List Txn, ∀ e ∈ subscriptionsOf txns,
        2 ≤ e.count ∧ 3 ≤ e.merchant.length
          ∧ ∃ l, (e.merchant, l) ∈ merchantGroups txns
            ∧ l = (debitsOf txns).filter
                (fun t => decide (normalizeMerchant t.description = e.merchant))
            ∧ e.count = l.length
            ∧ 2 ≤ (((l.map (fun t => monthKey t.date)).filterMap id).dedup).length
            ∧ e.totalAmount = l.foldl (fun s t => s + |t.amount|) 0
            ∧ e.avgAmount = e.totalAmount / (e.count : ℚ))
    ∧ subscriptionsOf nfList = [SubEntry.mk ("NETFLIX".toList) 3 199 597] := by
  refine ⟨?_, ?_, ?_, ?_⟩
  · intro txns
    unfold subscriptionsOf
    rw [List.length_map]
    exact List.length_take_le _ _
  · intro txns
    unfold subscriptionsOf
    rw [List.pairwise_map]
    exact List.Pairwise.sublist (List.take_sublist _ _)
      (sortByDesc_pairwise (fun g : SubGroup => g.totalAmount) _)
  · intro txns e he
    unfold subscriptionsOf at he
    obtain ⟨g0, hg0take, hge⟩ := List.mem_map.mp he
    have hg0sort := List.take_subset _ _ hg0take
    rw [sortByDesc_mem] at hg0sort
    obtain ⟨hg0mem, hg0pred⟩ := List.mem_filter.mp hg0sort
    obtain ⟨ent, hent, hfent⟩ := List.mem_map.mp hg0mem
    obtain ⟨k, l⟩ := ent
    obtain ⟨hvalid, hlchar⟩ := merchantGroups_spec txns k l hent
    simp only [Bool.and_eq_true, decide_eq_true_eq] at hg0pred
    subst hfent
    subst hge
    have h3 : 3 ≤ k.length := by
      simp only [Bool.or_eq_false_iff, decide_eq_false_iff_not] at hvalid
      omega
    exact ⟨hg0pred.1, h3, l, hent, hlchar, rfl, hg0pred.2, rfl, rfl⟩
  · have hab : |(-199 : ℚ)| = 199 := by
      rw [abs_neg]
      exact abs_of_nonneg (by norm_num)
    have htot : List.foldl (fun (s : ℚ) (t : Txn) => s + |t.amount|) 0 nfList
        = (597 : ℚ) := by
      simp only [nfList, netflixJan, netflixFeb, netflixMar, netflixTxn,
        List.foldl_cons, List.foldl_nil]
      rw [hab]
      norm_num
    have hgrp : merchantGroups nfList = [("NETFLIX".toList, nfList)] := rfl
    unfold subscriptionsOf
    rw [hgrp, List.map_cons, List.map_nil]
    simp only []
    rw [htot, show nfList.length = 3 from rfl,
      show (List.filterMap id
          (List.map (fun t => monthKey t.date) nfList)).dedup.length = 3 from rfl,
      show (597 : ℚ) / ((3 : Nat) : ℚ) = 199 from by norm_num]
    rfl

/-- Witness for `subscriptions_grouping_and_netflix`: the NETFLIX entry of the
concrete three-debit batch satisfies the per-entry guarantees. -/
theorem subscriptions_witness :
    2 ≤ (SubEntry.mk ("NETFLIX".toList) 3 (199 : ℚ) 597).count
      ∧ 3 ≤ (SubEntry.mk ("NETFLIX".toList) 3 (199 : ℚ) 597).merchant.length
      ∧ (subscriptionsOf nfList).length ≤ 10 := by
  have hmem : SubEntry.mk ("NETFLIX".toList) 3 (199 : ℚ) 597 ∈ subscriptionsOf nfList := by
    rw [subscriptions_grouping_and_netflix.2.2.2]
    exact List.mem_singleton.mpr rfl
  obtain ⟨h1, h2, _⟩ := subscriptions_grouping_and_netflix.2.2.1 nfList _ hmem
  exact ⟨h1, h2, subscriptions_grouping_and_netflix.1 nfList⟩

/-! ## C8: unusual-spend detection -/

theorem foldl_add_nonneg {α : Type} (g : α → ℚ) (hg : ∀ v, 0 ≤ g v) :
    ∀ (l : List α) (c : ℚ), c ≤ l.foldl (fun s v => s + g v) c := by
  intro l
  induction l with
  | nil =>
    intro c
    simp
  | cons a tl ih =>
    intro c
    rw [List.foldl_cons]
    exact le_trans (le_add_of_nonneg_right (hg a)) (ih (c + g a))

theorem varianceDebit_nonneg (txns : List Txn) : 0 ≤ varianceDebit txns := by
  unfold varianceDebit
  simp only []
  split
  · next h =>
    apply div_nonneg
    · exact foldl_add_nonneg (fun v => (v - meanDebit txns) * (v - meanDebit txns))
        (fun v => mul_self_nonneg _) _ 0
    · positivity
  · exact le_refl 0

/-- Over the reals, the square-free test agrees with
`mag > mean + 2 * Math.sqrt(variance)` whenever the variance is
non-negative. -/
theorem beatsStdDevGap_iff {mean varq mag : ℚ} (h : 0 ≤ varq) :
    (beatsStdDevGap mean varq mag = true) ↔
      (mean : ℝ) + 2 * Real.sqrt (varq : ℝ) < (mag : ℝ) := by
  have hv : (0 : ℝ) ≤ (varq : ℝ) := by exact_mod_cast h
  unfold beatsStdDevGap
  rw [Bool.and_eq_true, decide_eq_true_eq, decide_eq_true_eq]
  constructor
  · rintro ⟨h1, h2⟩
    have h1' : (mean : ℝ) < mag := by exact_mod_cast h1
    have h2' : (4 : ℝ) * varq < ((mag : ℝ) - mean) * ((mag : ℝ) - mean) := by
      exact_mod_cast h2
    have hs : Real.sqrt (4 * (varq : ℝ))
        < Real.sqrt (((mag : ℝ) - mean) * ((mag : ℝ) - mean)) := by
      apply Real.sqrt_lt_sqrt _ h2'
      positivity
    rw [Real.sqrt_mul_self (by linarith)] at hs
    have h4 : Real.sqrt (4 * (varq : ℝ)) = 2 * Real.sqrt (varq : ℝ) := by
      rw [show (4 : ℝ) * (varq : ℝ) = (2 : ℝ) ^ 2 * (varq : ℝ) from by norm_num,
        Real.sqrt_mul (by positivity), Real.sqrt_sq (by norm_num)]
    rw [h4] at hs
    linarith
  · intro hlt
    have hs : (0 : ℝ) ≤ Real.sqrt (varq : ℝ) := Real.sqrt_nonneg _
    have h1 : mean < mag := by
      have : (mean : ℝ) < mag := by linarith
      exact_mod_cast this
    refine ⟨h1, ?_⟩
    have h2s : 2 * Real.sqrt (varq : ℝ) < (mag : ℝ) - mean := by linarith
    have hsq : (2 * Real.sqrt (varq : ℝ)) * (2 * Real.sqrt (varq : ℝ))
        < ((mag : ℝ) - mean) * ((mag : ℝ) - mean) :=
      mul_self_lt_mul_self (by positivity) h2s
    have hval : (2 * Real.sqrt (varq : ℝ)) * (2 * Real.sqrt (varq : ℝ))
        = 4 * (varq : ℝ) := by
      calc (2 * Real.sqrt (varq : ℝ)) * (2 * Real.sqrt (varq : ℝ))
          = 4 * (Real.sqrt (varq : ℝ) * Real.sqrt (varq : ℝ)) := by ring
        _ = 4 * (varq : ℝ) := by rw [Real.mul_self_sqrt hv]
    rw [hval] at hsq
    exact_mod_cast hsq

def d100 : Txn :=
  { id := "d".toList, date := "2024-01-01".toList, description := "POS SPEND".toList,
    amount := -100, drCr := some DrCr.DR, sourceParser := none, currency := [],
    category := [], confidence := 1 }

def d5000 : Txn :=
  { id := "big".toList, date := "2024-01-02".toList, description := "POS TV".toList,
    amount := -5000, drCr := some DrCr.DR, sourceParser := none, currency := [],
    category := [], confidence := 1 }

def unusualList : List Txn :=
  [d100, d100, d100, d100, d100, d100, d100, d100, d100, d5000]

/-- C8: unusual-spend detection uses the threshold
`max(mean * 1.8, mean + 2 * stddev)` over the debit magnitudes (shown against
the real square root; the population variance is never negative), flags only
debits above both the threshold and the absolute floor of 1000, sorts the
result by magnitude descending and caps it at 10; and for nine debits of 100
and one of 5000 exactly the 5000 debit is flagged. -/
theorem unusual_spends_spec :
    (∀ txns : List Txn, 0 ≤ varianceDebit txns)
    ∧ (∀ mean varq mag : ℚ, 0 ≤ varq →
        (isUnusualAmt mean varq mag = true ↔
          (max ((mean : ℝ) * 1.8) ((mean : ℝ) + 2 * Real.sqrt (varq : ℝ)) < (mag : ℝ)
            ∧ (1000 : ℝ) < (mag : ℝ))))
    ∧ (∀ txns : List Txn, (unusualSpendsOf txns).length ≤ 10)
    ∧ (∀ txns : List Txn, (unusualSpendsOf txns).Pairwise
        (fun e1 e2 => e2.amount ≤ e1.amount))
    ∧ unusualSpendsOf unusualList
        = [UnusualEntry.mk ("big".toList) ("2024-01-02".toList) ("POS TV".toList) 5000] := by
  refine ⟨varianceDebit_nonneg, ?_, ?_, ?_, ?_⟩
  · intro mean varq mag h
    unfold isUnusualAmt
    rw [Bool.and_eq_true, Bool.and_eq_true, decide_eq_true_eq, decide_eq_true_eq,
      beatsStdDevGap_iff h, max_lt_iff]
    have h18 : ((1.8 : ℚ) : ℝ) = (1.8 : ℝ) := by norm_num
    constructor
    · rintro ⟨⟨hA, hB⟩, hC⟩
      refine ⟨⟨?_, hB⟩, by exact_mod_cast hC⟩
      rw [← h18]
      exact_mod_cast hA
    · rintro ⟨⟨hA, hB⟩, hC⟩
      rw [← h18] at hA
      exact ⟨⟨by exact_mod_cast hA, hB⟩, by exact_mod_cast hC⟩
  · intro txns
    unfold unusualSpendsOf
    rw [List.length_map]
    exact List.length_take_le _ _
  · intro txns
    unfold unusualSpendsOf
    rw [List.pairwise_map]
    exact List.Pairwise.sublist (List.take_sublist _ _)
      (sortByDesc_pairwise (fun t : Txn => |t.amount|) _)
  · have hab100 : |(-100 : ℚ)| = 100 := by
      rw [abs_neg]
      exact abs_of_nonneg (by norm_num)
    have hab5000 : |(-5000 : ℚ)| = 5000 := by
      rw [abs_neg]
      exact abs_of_nonneg (by norm_num)
    have hmean : meanDebit unusualList = 590 := by
      unfold meanDebit debitMagnitudes
      rw [show debitsOf unusualList = unusualList from rfl]
      simp only [unusualList, d100, d5000, List.map_cons, List.map_nil, List.length_cons,
        List.length_nil, List.foldl_cons, List.foldl_nil, hab100, hab5000]
      norm_num
    have hvar : varianceDebit unusualList = 2160900 := by
      unfold varianceDebit debitMagnitudes
      rw [show debitsOf unusualList = unusualList from rfl, hmean]
      simp only [unusualList, d100, d5000, List.map_cons, List.map_nil, List.length_cons,
        List.length_nil, List.foldl_cons, List.foldl_nil, hab100, hab5000]
      norm_num
    have hf100 : isUnusualAmt 590 2160900 (100 : ℚ) = false := by
      unfold isUnusualAmt
      rw [decide_eq_false (by norm_num : ¬((1000 : ℚ) < 100)), Bool.and_false]
    have hf5000 : isUnusualAmt 590 2160900 (5000 : ℚ) = true := by
      unfold isUnusualAmt beatsStdDevGap
      rw [decide_eq_true (by norm_num : (590 : ℚ) * 1.8 < 5000),
        decide_eq_true (by norm_num : (590 : ℚ) < 5000),
        decide_eq_true (by norm_num : (4 : ℚ) * 2160900 < ((5000 : ℚ) - 590) * (5000 - 590)),
        decide_eq_true (by norm_num : (1000 : ℚ) < 5000)]
      rfl
    have hfilter : (debitsOf unusualList).filter
        (fun t => isUnusualAmt (meanDebit unusualList) (varianceDebit unusualList)
          |t.amount|) = [d5000] := by
      rw [show debitsOf unusualList = unusualList from rfl, hmean, hvar]
      simp only [unusualList, List.filter_cons, List.filter_nil, d100, d5000, hab100,
        hab5000, hf100, hf5000]
      rfl
    unfold unusualSpendsOf
    rw [hfilter]
    simp only [sortByDesc, insertByDesc, List.take, List.map_cons, List.map_nil, d5000,
      hab5000]

/-- Witness for `unusual_spends_spec` at the concrete batch of nine debits of
100 and one of 5000 (mean 590, variance 2160900), and at the concrete
threshold instance `(590, 2160900, 5000)`. -/
theorem unusual_spends_witness :
    0 ≤ varianceDebit unusualList
      ∧ (unusualSpendsOf unusualList).length ≤ 10
      ∧ (isUnusualAmt 590 2160900 5000 = true ↔
          (max (((590 : ℚ) : ℝ) * 1.8)
              (((590 : ℚ) : ℝ) + 2 * Real.sqrt ((2160900 : ℚ) : ℝ)) < ((5000 : ℚ) : ℝ)
            ∧ (1000 : ℝ) < ((5000 : ℚ) : ℝ))) :=
  ⟨unusual_spends_spec.1 unusualList, unusual_spends_spec.2.2.1 unusualList,
   unusual_spends_spec.2.1 590 2160900 5000 (by decide)⟩
